import Mathlib

/-!
Verification development for the lotion frontend streaming client.

The definitions below are a shallow embedding of
`src/frontend/src/lib/agentos.ts` (SSE frame splitting, event decoding,
content normalization, member attribution, run aggregation) and of the
gate-flag handling in `src/frontend/src/app/page.tsx`.

Strings are modelled as `List Char` (named `Str`), JavaScript values
reachable from `JSON.parse` as the inductive `JVal`, and the JavaScript
object graph (which, unlike parse results, can contain shared references
and cycles) as `HVal` over an explicit heap.  Functions whose JavaScript
originals recurse through property lookups are defined by well-founded
recursion on an explicit size measure (`jsize`); the object-graph
versions instead carry a fuel argument that decreases on every
recursive call, so that running out of fuel at every fuel value is
exactly non-termination of the original recursion.  `JSON.parse` itself
is a platform builtin and is modelled as an `Option`-returning
parameter.
-/

set_option maxHeartbeats 1000000

abbrev Str := List Char

/-- Whitespace test used to model JavaScript `String.prototype.trim`. -/
def isWsChar (c : Char) : Bool := c.isWhitespace

/-- Model of JavaScript `s.trim()`: drop whitespace from both ends. -/
def trimStr (s : Str) : Str :=
  ((s.dropWhile isWsChar).reverse.dropWhile isWsChar).reverse

/-- Model of JavaScript `s.split("\n")`. -/
def splitLines : Str → List Str
  | [] => [[]]
  | c :: rest =>
    if c = '\n' then [] :: splitLines rest
    else
      match splitLines rest with
      | [] => [[c]]
      | l :: ls => (c :: l) :: ls

/-- Model of JavaScript `s.toLowerCase()` (ASCII case folding suffices
for the identifiers this client manipulates). -/
def toLowerStr (s : Str) : Str := s.map Char.toLower

/-- Concatenation of a list of strings (used to state chunk-splitting
independence of the frame splitter). -/
def joinAll : List Str → Str
  | [] => []
  | s :: ss => s ++ joinAll ss

/- ===================== Frame splitter =====================
`processBuffer` in agentos.ts repeatedly looks for the first `"\n\n"`
in the buffer (`buffer.indexOf("\n\n")`), emits the prefix before it as
one raw event frame and keeps the rest as the new buffer. -/

/-- First blank-line separator split: if the string contains `"\n\n"`,
returns the prefix before the first occurrence and the suffix after it,
exactly like `buffer.indexOf("\n\n")` followed by the two slices in
`processBuffer` (agentos.ts lines 256-260). -/
def splitFirst : Str → Option (Str × Str)
  | [] => none
  | c :: rest =>
    if c = '\n' ∧ rest.head? = some '\n' then some ([], rest.tail)
    else (splitFirst rest).map (fun p => (c :: p.1, p.2))

theorem splitFirst_eq_append :
    ∀ {s f r : Str}, splitFirst s = some (f, r) → s = f ++ '\n' :: '\n' :: r := by
  intro s
  induction s with
  | nil => intro f r h; simp [splitFirst] at h
  | cons c rest ih =>
    intro f r h
    rw [splitFirst] at h
    by_cases hc : c = '\n' ∧ rest.head? = some '\n'
    · rw [if_pos hc] at h
      obtain ⟨rfl, rfl⟩ := Option.some.injEq .. ▸ Prod.mk.injEq .. ▸ (by
        simpa using h : ([] : Str) = f ∧ rest.tail = r)
      cases rest with
      | nil => simp at hc
      | cons d ds =>
        obtain ⟨rfl, hd⟩ := hc
        simp at hd
        simp [hd]
    · rw [if_neg hc] at h
      cases hsf : splitFirst rest with
      | none => rw [hsf] at h; simp at h
      | some p =>
        rw [hsf] at h
        simp at h
        obtain ⟨rfl, rfl⟩ := h
        have := ih (f := p.1) (r := p.2) (by rw [hsf])
        simp [this]

theorem splitFirst_length {s f r : Str} (h : splitFirst s = some (f, r)) :
    r.length < s.length := by
  have := splitFirst_eq_append h
  subst this
  simp
  omega

theorem splitFirst_nil_of_none {s : Str} : splitFirst s = some p → s ≠ [] := by
  intro h hs
  subst hs
  simp [splitFirst] at h

/-- If a string already contains a separator, appending more text does
not change the first frame extracted; the appended text lands in the
remainder. -/
theorem splitFirst_append :
    ∀ {s f r : Str}, splitFirst s = some (f, r) →
      ∀ b : Str, splitFirst (s ++ b) = some (f, r ++ b) := by
  intro s
  induction s with
  | nil => intro f r h; simp [splitFirst] at h
  | cons c rest ih =>
    intro f r h b
    rw [splitFirst] at h
    by_cases hc : c = '\n' ∧ rest.head? = some '\n'
    · rw [if_pos hc] at h
      simp at h
      obtain ⟨rfl, rfl⟩ := h
      cases rest with
      | nil => simp at hc
      | cons d ds =>
        obtain ⟨rfl, hd⟩ := hc
        simp at hd
        subst hd
        simp [splitFirst]
    · rw [if_neg hc] at h
      cases hsf : splitFirst rest with
      | none => rw [hsf] at h; simp at h
      | some p =>
        rw [hsf] at h
        simp at h
        obtain ⟨rfl, rfl⟩ := h
        have hrest : rest ≠ [] := splitFirst_nil_of_none hsf
        have hcond : ¬(c = '\n' ∧ (rest ++ b).head? = some '\n') := by
          intro ⟨h1, h2⟩
          cases rest with
          | nil => exact hrest rfl
          | cons d ds => exact hc ⟨h1, by simpa using h2⟩
        rw [show (c :: rest) ++ b = c :: (rest ++ b) from rfl, splitFirst, if_neg hcond,
          ih (by rw [hsf]) b]
        simp

/-- The `while (separatorIndex !== -1)` loop of `processBuffer`
(agentos.ts lines 255-313), restricted to its framing effect: extract
every leading frame up to a blank-line separator and return the frames
in order together with the remaining buffer. -/
def drainFrames (s : Str) : List Str × Str :=
  match h : splitFirst s with
  | none => ([], s)
  | some p =>
    let rec' := drainFrames p.2
    (p.1 :: rec'.1, rec'.2)
termination_by s.length
decreasing_by exact splitFirst_length h

theorem drainFrames_none {s : Str} (h : splitFirst s = none) :
    drainFrames s = ([], s) := by
  rw [drainFrames, h]

theorem drainFrames_some {s f r : Str} (h : splitFirst s = some (f, r)) :
    drainFrames s = (f :: (drainFrames r).1, (drainFrames r).2) := by
  rw [drainFrames, h]

/-- The remaining buffer after draining never contains a separator. -/
theorem splitFirst_drainFrames (s : Str) :
    splitFirst (drainFrames s).2 = none := by
  by_cases h : ∃ p, splitFirst s = some p
  · obtain ⟨⟨f, r⟩, hp⟩ := h
    rw [drainFrames_some hp]
    exact splitFirst_drainFrames r
  · have hn : splitFirst s = none := by
      cases hsf : splitFirst s with
      | none => rfl
      | some p => exact absurd ⟨p, hsf⟩ h
    rw [drainFrames_none hn]
    exact hn
termination_by s.length
decreasing_by exact splitFirst_length hp

/-- Draining a concatenation equals draining the first part and then
draining its remainder extended with the second part. -/
theorem drainFrames_append (a b : Str) :
    drainFrames (a ++ b) =
      ((drainFrames a).1 ++ (drainFrames ((drainFrames a).2 ++ b)).1,
        (drainFrames ((drainFrames a).2 ++ b)).2) := by
  cases hsf : splitFirst a with
  | none =>
    rw [drainFrames_none hsf]
    simp
  | some p =>
    obtain ⟨f, r⟩ := p
    rw [drainFrames_some hsf]
    rw [drainFrames_some (splitFirst_append hsf b)]
    have ih := drainFrames_append r b
    rw [ih]
    simp
termination_by a.length
decreasing_by exact splitFirst_length hsf

/-- One call of the chunk loop body in `sendMessageToAgentOS`
(agentos.ts lines 315-324): append the decoded chunk to the buffer and
run `processBuffer`, collecting the frames it emits. -/
def feedChunk (st : List Str × Str) (chunk : Str) : List Str × Str :=
  let drained := drainFrames (st.2 ++ chunk)
  (st.1 ++ drained.1, drained.2)

/-- Feed a whole sequence of chunks, starting from an empty frame list
and an empty buffer, as the read loop does. -/
def feedChunks (chunks : List Str) : List Str × Str :=
  chunks.foldl feedChunk ([], [])

theorem feedChunks_go :
    ∀ (chunks : List Str) (st : List Str × Str), splitFirst st.2 = none →
      chunks.foldl feedChunk st =
        (st.1 ++ (drainFrames (st.2 ++ joinAll chunks)).1,
          (drainFrames (st.2 ++ joinAll chunks)).2) := by
  intro chunks
  induction chunks with
  | nil =>
    intro st hst
    simp [joinAll, drainFrames_none hst]
  | cons c cs ih =>
    intro st hst
    rw [List.foldl_cons]
    have hst' : splitFirst (feedChunk st c).2 = none := splitFirst_drainFrames _
    rw [ih _ hst']
    have hd := drainFrames_append (st.2 ++ c) (joinAll cs)
    simp only [feedChunk, joinAll]
    rw [show st.2 ++ (c ++ joinAll cs) = (st.2 ++ c) ++ joinAll cs by simp, hd]
    simp

/- ===================== Coordinator-text sanitizer =====================
`sanitizeCoordinatorText` / `containsCoordinatorCommand` in agentos.ts
(lines 107-134).  The two regular expressions are modelled by explicit
scanners: `/\bcall\s+[a-z_]+\(/i` and `/\bdelegate_task_to_member\b/i`
(`\b` = transition from a non-word position to a word character, `\w` =
ASCII letter, digit or underscore, `/i` = ASCII case-insensitive). -/

def nlStr : Str := ['\n']

/-- Non-empty-string truthiness, modelling `filter(Boolean)` on strings. -/
def truthyStr (s : Str) : Bool := !s.isEmpty

/-- JavaScript `\w` character class. -/
def isWordChar (c : Char) : Bool := c.isAlpha || c.isDigit || c = '_'

/-- `[a-z_]` under the `/i` flag. -/
def isCallNameChar (c : Char) : Bool := c.isAlpha || c = '_'

/-- Case-insensitive literal match: strip `p` from the front of `s`. -/
def dropCI : Str → Str → Option Str
  | [], s => some s
  | _ :: _, [] => none
  | p :: ps, c :: cs =>
    if Char.toLower c = Char.toLower p then dropCI ps cs else none

/-- Does `call\s+[a-z_]+\(` match starting exactly here? -/
def callHere (s : Str) : Bool :=
  match dropCI "call".data s with
  | some rest =>
    let p1 := rest.span isWsChar
    if p1.1.isEmpty then false
    else
      let p2 := p1.2.span isCallNameChar
      if p2.1.isEmpty then false
      else p2.2.head? == some '('
  | none => false

/-- Scan for `\bcall\s+[a-z_]+\(` anywhere; the Bool argument records
whether the current position is preceded by a non-word character (or is
the start of the string), i.e. whether `\b` holds before a word char. -/
def scanCall : Bool → Str → Bool
  | _, [] => false
  | bnd, c :: rest => (bnd && callHere (c :: rest)) || scanCall (!isWordChar c) rest

/-- Case-insensitive whole-word match at the current position:
the literal `w` followed by a non-word character or the end. -/
def wordHere (w : Str) (s : Str) : Bool :=
  match dropCI w s with
  | some rest =>
    !(match rest.head? with
      | some c => isWordChar c
      | none => false)
  | none => false

def scanWordCI (w : Str) : Bool → Str → Bool
  | _, [] => false
  | bnd, c :: rest => (bnd && wordHere w (c :: rest)) || scanWordCI w (!isWordChar c) rest

/-- agentos.ts lines 107-108. -/
def containsCoordinatorCommand (text : Str) : Bool :=
  scanCall true text || scanWordCI "delegate_task_to_member".data true text

/-- `/^calling\b/i` (agentos.ts line 122). -/
def startsCalling (line : Str) : Bool := wordHere "calling".data line

/-- The filter predicate of `sanitizeCoordinatorText` (lines 114-132);
the original also tests `lower.startsWith("coordinatorpm")`, which is
subsumed by the `"coordinator"` test that precedes it. -/
def keepLine (line : Str) : Bool :=
  if line.isEmpty then false
  else if containsCoordinatorCommand line then false
  else if startsCalling line then false
  else if "coordinator".data.isPrefixOf (toLowerStr line) then false
  else if "system:".data.isPrefixOf (toLowerStr line) then false
  else true

/-- agentos.ts lines 110-134. -/
def sanitizeCoordinatorText (text : Str) : Str :=
  trimStr (List.intercalate nlStr (((splitLines text).map trimStr).filter keepLine))

/-- agentos.ts lines 138-141: lowercase, then strip everything that is
not a lowercase ASCII letter or digit. -/
def normalizeIdentifier (v : Str) : Str :=
  (toLowerStr v).filter (fun c => (decide ('a' ≤ c) && decide (c ≤ 'z')) ||
    (decide ('0' ≤ c) && decide (c ≤ '9')))

/- ===================== JSON value model =====================
Values produced by `JSON.parse` on the wire: finite trees.  Objects are
association lists in key order (parse results have distinct keys). -/

inductive JVal where
  | jnull : JVal
  | jbool : Bool → JVal
  | jnum : Int → JVal
  | jstr : Str → JVal
  | jarr : List JVal → JVal
  | jobj : List (Str × JVal) → JVal
deriving Repr

/-- Property lookup on an object's field list (`record.foo`). -/
def jlookup (fs : List (Str × JVal)) (k : Str) : Option JVal :=
  (fs.find? (fun p => p.1 == k)).map (fun p => p.2)

/-- Named-property access on an arbitrary value: only plain objects
have named properties; arrays (whose own properties are indices) and
primitives yield `undefined`. -/
def getProp : JVal → Str → Option JVal
  | .jobj fs, k => jlookup fs k
  | _, _ => none

/-- `value && typeof value === "object"`: true exactly for arrays and
objects (null is falsy; `typeof null` is "object" but null fails the
truthiness test). -/
def objTruthy : JVal → Bool
  | .jarr _ => true
  | .jobj _ => true
  | _ => false

mutual

/-- Explicit size measure on parse values, used for termination of the
functions that recurse through property lookups. -/
def jsize : JVal → Nat
  | .jnull => 1
  | .jbool _ => 1
  | .jnum _ => 1
  | .jstr _ => 1
  | .jarr xs => 1 + jsizeL xs
  | .jobj fs => 1 + jsizeF fs

def jsizeL : List JVal → Nat
  | [] => 1
  | x :: xs => 1 + jsize x + jsizeL xs

def jsizeF : List (Str × JVal) → Nat
  | [] => 1
  | p :: fs => 1 + jsize p.2 + jsizeF fs

end

theorem jsize_mem_list {x : JVal} : ∀ {xs : List JVal}, x ∈ xs → jsize x < jsizeL xs := by
  intro xs
  induction xs with
  | nil => intro h; simp at h
  | cons y ys ih =>
    intro h
    rcases List.mem_cons.mp h with rfl | hmem
    · simp [jsizeL]; omega
    · have := ih hmem
      simp [jsizeL]
      omega

theorem jsizeFpos : ∀ fs : List (Str × JVal), 1 ≤ jsizeF fs := by
  intro fs
  cases fs <;> simp [jsizeF] <;> omega

theorem jsize_pos : ∀ v : JVal, 1 ≤ jsize v := by
  intro v
  cases v <;> simp [jsize]

theorem jsizeL_pos : ∀ l : List JVal, 1 ≤ jsizeL l := by
  intro l
  cases l <;> simp [jsizeL] <;> omega

theorem jsizeF_jlookup {fs : List (Str × JVal)} {k : Str} {v : JVal}
    (h : jlookup fs k = some v) : jsize v + 2 ≤ jsizeF fs := by
  have hmem : ∃ a, (a, v) ∈ fs := by
    unfold jlookup at h
    cases hf : fs.find? (fun p => p.1 == k) with
    | none => rw [hf] at h; simp at h
    | some p =>
      rw [hf] at h
      simp at h
      subst h
      exact ⟨p.1, by simpa using List.mem_of_find?_eq_some hf⟩
  obtain ⟨a, hmem⟩ := hmem
  clear h
  induction fs with
  | nil => simp at hmem
  | cons q qs ih =>
    rcases List.mem_cons.mp hmem with heq | hmem'
    · subst heq
      have := jsizeFpos qs
      simp [jsizeF]
      omega
    · have := ih hmem'
      simp [jsizeF]
      omega

theorem jsize_jlookup {fs : List (Str × JVal)} {k : Str} {v : JVal}
    (h : jlookup fs k = some v) : jsize v < jsize (JVal.jobj fs) := by
  have := jsizeF_jlookup h
  simp [jsize]
  omega

/- ===================== JSON.stringify model ===================== -/

def lbraceC : Char := Char.ofNat 123
def rbraceC : Char := Char.ofNat 125

def hexDigit (d : Nat) : Char :=
  if d < 10 then Char.ofNat (48 + d) else Char.ofNat (87 + d)

/-- JSON string escaping as `JSON.stringify` performs it. -/
def escapeJsonChar (c : Char) : Str :=
  if c = '"' then ['\\', '"']
  else if c = '\\' then ['\\', '\\']
  else if c = '\n' then ['\\', 'n']
  else if c = '\r' then ['\\', 'r']
  else if c = '\t' then ['\\', 't']
  else if c.toNat < 32 then
    '\\' :: 'u' :: '0' :: '0' :: [hexDigit (c.toNat / 16), hexDigit (c.toNat % 16)]
  else [c]

def quoteJson (s : Str) : Str :=
  '"' :: s.foldr (fun c acc => escapeJsonChar c ++ acc) ['"']

def jsBoolStr (b : Bool) : Str := if b then "true".data else "false".data

/-- `String(n)` / stringify for the integral numbers of this model. -/
def jsNumStr (n : Int) : Str := (toString n).data

mutual

/-- `JSON.stringify` on a parse-shaped value (the fallback of
`extractTextFromContent`, agentos.ts line 102). -/
def stringifyJ : JVal → Str
  | .jnull => "null".data
  | .jbool b => jsBoolStr b
  | .jnum n => jsNumStr n
  | .jstr s => quoteJson s
  | .jarr xs => '[' :: (List.intercalate [','] (stringifyList xs) ++ [']'])
  | .jobj fs => lbraceC :: (List.intercalate [','] (stringifyFields fs) ++ [rbraceC])

def stringifyList : List JVal → List Str
  | [] => []
  | x :: xs => stringifyJ x :: stringifyList xs

def stringifyFields : List (Str × JVal) → List Str
  | [] => []
  | (k, v) :: fs => (quoteJson k ++ ':' :: stringifyJ v) :: stringifyFields fs

end

/- ===================== Content normalizer =====================
`extractTextFromContent` (agentos.ts lines 63-105) on parse-shaped
values. -/

def keyText : Str := "text".data
def keyContent : Str := "content".data
def keyResponse : Str := "response".data
def keyOutput : Str := "output".data
def keyMessages : Str := "messages".data
def keyParts : Str := "parts".data

/-- `.filter(Boolean).join("\n")` applied to a list of strings. -/
def joinTruthy (l : List Str) : Str := List.intercalate nlStr (l.filter truthyStr)

/-- `candidates.find(v => typeof v === "string" && v.trim() !== "")`:
absent candidates are `none`; string candidates qualify when their trim
is non-empty. -/
def firstPreferred : List (Option Str) → Option Str
  | [] => none
  | c :: cs =>
    match c with
    | some s => if trimStr s ≠ [] then some s else firstPreferred cs
    | none => firstPreferred cs

/-- A field whose value is a string (`typeof record.k === "string"`). -/
def strProp (fs : List (Str × JVal)) (k : Str) : Option Str :=
  match jlookup fs k with
  | some (.jstr s) => some s
  | _ => none

mutual

/-- agentos.ts lines 63-105: reduce an arbitrary payload fragment to a
display string.  Strings pass through; arrays map, drop falsy results
and join with newline; objects probe the preferred singular fields,
then array-valued content/messages/parts, then recurse into an
object-or-array content field, and finally fall back to
`JSON.stringify`; other primitives go through `String(...)`. -/
def extractTextFromContent (v : JVal) : Str :=
  match v with
  | .jnull => []
  | .jstr s => s
  | .jbool b => jsBoolStr b
  | .jnum n => jsNumStr n
  | .jarr xs => joinTruthy (mapExtract xs)
  | .jobj fs =>
    let c5 : Option Str :=
      match h5 : jlookup fs keyContent with
      | some (.jarr ys) => some (joinTruthy (mapExtract ys))
      | _ => none
    let c6 : Option Str :=
      match h6 : jlookup fs keyMessages with
      | some (.jarr ys) => some (joinTruthy (mapExtract ys))
      | _ => none
    let c7 : Option Str :=
      match h7 : jlookup fs keyParts with
      | some (.jarr ys) => some (joinTruthy (mapExtract ys))
      | _ => none
    match firstPreferred [strProp fs keyText, strProp fs keyContent,
        strProp fs keyResponse, strProp fs keyOutput, c5, c6, c7] with
    | some s => s
    | none =>
      match h8 : jlookup fs keyContent with
      | some (.jobj gs) => extractTextFromContent (.jobj gs)
      | some (.jarr ys) => extractTextFromContent (.jarr ys)
      | _ => stringifyJ (.jobj fs)
termination_by jsize v
decreasing_by
  all_goals simp [jsize, jsizeL]
  all_goals (first
    | (have h9 := jsize_jlookup h5; simp [jsize] at h9; omega)
    | (have h9 := jsize_jlookup h6; simp [jsize] at h9; omega)
    | (have h9 := jsize_jlookup h7; simp [jsize] at h9; omega)
    | (have h9 := jsize_jlookup h8; simp [jsize] at h9; omega))

def mapExtract (l : List JVal) : List Str :=
  match l with
  | [] => []
  | x :: xs => extractTextFromContent x :: mapExtract xs
termination_by jsizeL l
decreasing_by
  all_goals (simp [jsize, jsizeL]; try omega)

end

/- ===================== Attribution resolver =====================
`extractMemberIdentifier`, `extractMemberText` and the
`noteMemberResponses` closure (agentos.ts lines 143-179 and 229-253).
The closure pushes each entry's identifier and cleaned text into the
surrounding mutable registries in depth-first order; here the emission
sequence is computed as a pure list of `MemberOutput`s and the registry
updates are applied by folding that sequence (`applyOutputs` below),
which produces the same final registries because each push only appends
to a list or to one key's bucket. -/

structure MemberOutput where
  identifier : Str
  normalizedId : Str
  text : Str
deriving Repr, DecidableEq

def keyMemberId : Str := "member_id".data
def keyAgentId : Str := "agent_id".data
def keyName : Str := "name".data
def keyId : Str := "id".data
def keyMemberResponses : Str := "member_responses".data

/-- Scan identifier keys in order: first of them whose value is a
non-blank string wins (lowercased). -/
def extractMemberIdFrom (response : JVal) : List Str → Str
  | [] => []
  | k :: ks =>
    match getProp response k with
    | some (.jstr s) => if trimStr s ≠ [] then toLowerStr s else extractMemberIdFrom response ks
    | _ => extractMemberIdFrom response ks

/-- agentos.ts lines 143-151: first of member_id/agent_id/name/id that
is a non-blank string, lowercased; otherwise the empty string. -/
def extractMemberIdentifier (response : JVal) : Str :=
  extractMemberIdFrom response [keyMemberId, keyAgentId, keyName, keyId]

/-- agentos.ts lines 153-179: gather the text-bearing fields of one
member response, falling back to normalizing the whole entry when no
recognized field is present, and join the truthy chunks with newline. -/
def extractMemberText (response : JVal) : Str :=
  let chunks :=
    (match getProp response keyResponse with
     | some v => [extractTextFromContent v]
     | none => []) ++
    (match getProp response keyOutput with
     | some v => [extractTextFromContent v]
     | none => []) ++
    (match getProp response keyContent with
     | some v => [extractTextFromContent v]
     | none => []) ++
    (match getProp response keyMessages with
     | some (.jarr ms) => [joinTruthy (mapExtract ms)]
     | _ => [])
  let chunks := if chunks.isEmpty then [extractTextFromContent response] else chunks
  List.intercalate nlStr (chunks.filter truthyStr)

def unknownMarker : Str := "(unknown)".data

/-- agentos.ts line 237: the registry key derived from an entry's
identifier — the literal "(unknown)" (whether it stands in for a failed
extraction or was extracted verbatim from the entry) is kept as-is,
every other identifier is normalized. -/
def noteNormalizedId (identifier : Str) : Str :=
  if identifier = unknownMarker then unknownMarker else normalizeIdentifier identifier

mutual

/-- agentos.ts lines 229-253: the emission sequence of
`noteMemberResponses`.  A non-array argument is wrapped in a singleton
list; non-object entries are skipped; an entry whose cleaned text is
empty contributes nothing (and its nested responses are not visited,
because the original returns before recursing); otherwise the entry's
`MemberOutput` is emitted and the entry's `member_responses` field, if
present, is resolved recursively right after it. -/
def noteMemberResponses (responses : JVal) : List MemberOutput :=
  match responses with
  | .jarr xs => noteList xs
  | v => noteList [v]
termination_by jsize responses + 3
decreasing_by
  all_goals (simp [jsize, jsizeL]; try omega)

def noteList (l : List JVal) : List MemberOutput :=
  match l with
  | [] => []
  | x :: xs => noteEntry x ++ noteList xs
termination_by jsizeL l
decreasing_by
  all_goals simp [jsize, jsizeL]
  all_goals (have h9 := jsizeL_pos xs; omega)

def noteEntry (item : JVal) : List MemberOutput :=
  if objTruthy item then
    let rawId := extractMemberIdentifier item
    let identifier := if rawId = [] then unknownMarker else rawId
    let normalizedId := noteNormalizedId identifier
    let cleaned := sanitizeCoordinatorText (trimStr (extractMemberText item))
    if cleaned = [] then []
    else
      ⟨identifier, normalizedId, cleaned⟩ ::
        (match hmr : getProp item keyMemberResponses with
         | some r => noteMemberResponses r
         | none => [])
  else []
termination_by jsize item + 1
decreasing_by
  cases item <;> simp [getProp] at hmr
  case jobj fs =>
    have := jsizeF_jlookup hmr
    simp [jsize]
    omega

end

/- ===================== Event decoder =====================
`parseSSEEvent` (agentos.ts lines 29-61).  `JSON.parse` is a platform
builtin, so it is a parameter here: `parse s = some v` models a
successful parse producing `v`, `parse s = none` models the thrown
SyntaxError that the original catches (keeping the raw string as the
payload).  A payload of JavaScript `null` (no data lines) is `jnull`;
a raw-string fallback payload behaves exactly like a parsed JSON
string downstream, so both are represented as `jstr`. -/

def evMarker : Str := "event:".data
def daMarker : Str := "data:".data
def msgKind : Str := "message".data

/-- One iteration of the `for (const line of lines)` loop of
`parseSSEEvent`: an `event:` line overwrites the kind, a `data:` line
is trimmed of the marker and appended, other lines are ignored. -/
def sseStep (acc : Str × List Str) (l : Str) : Str × List Str :=
  if evMarker.isPrefixOf l then (trimStr (l.drop evMarker.length), acc.2)
  else if daMarker.isPrefixOf l then (acc.1, acc.2 ++ [trimStr (l.drop daMarker.length)])
  else acc

/-- The whole loop: the last `event:` line wins and `data:` values are
collected in order. -/
def sseScan (lines : List Str) : Str × List Str :=
  lines.foldl sseStep (msgKind, [])

/-- agentos.ts lines 29-61. -/
def parseSSEEvent (parse : Str → Option JVal) (rawEvent : Str) : Option (Str × JVal) :=
  if trimStr rawEvent = [] then none
  else
    let scanned := sseScan (splitLines rawEvent)
    let dataString := List.intercalate nlStr scanned.2
    if dataString = [] then some (scanned.1, .jnull)
    else
      match parse dataString with
      | some v => some (scanned.1, v)
      | none => some (scanned.1, .jstr dataString)

/- ===================== Run aggregator =====================
The mutable locals of `sendMessageToAgentOS` (agentos.ts lines
219-227) and the per-event part of `processBuffer` (lines 262-311). -/

structure AggState where
  aggregatedText : Str
  memberOutputs : List (Str × List Str)
  memberIdentifiers : List Str
  observedSessionId : Option Str
  runId : Option Str
deriving Repr, DecidableEq

/-- `Map.get`: first binding of the key in insertion order. -/
def mapGet (m : List (Str × List Str)) (k : Str) : Option (List Str) :=
  (m.find? (fun p => p.1 == k)).map (fun p => p.2)

/-- `Map.set`: update the existing binding in place, else append a new
one (JavaScript `Map` preserves first-insertion order). -/
def mapSet (m : List (Str × List Str)) (k : Str) (v : List Str) : List (Str × List Str) :=
  match m with
  | [] => [(k, v)]
  | p :: rest => if p.1 = k then (k, v) :: rest else p :: mapSet rest k v

/-- JavaScript truthiness of an optional string (`!observedSessionId`
is true both for `undefined` and for the empty string). -/
def optTruthy : Option Str → Bool
  | some s => !s.isEmpty
  | none => false

/-- agentos.ts lines 221-227: fresh per-request state.  The caller's
`sessionId` seeds `observedSessionId` via `sessionId || undefined`. -/
def initAggState (sessionId : Option Str) : AggState :=
  { aggregatedText := []
    memberOutputs := []
    memberIdentifiers := []
    observedSessionId := match sessionId with
      | some s => if s.isEmpty then none else some s
      | none => none
    runId := none }

def keySessionId : Str := "session_id".data
def keyRunId : Str := "run_id".data

/-- agentos.ts lines 270-272: capture the session id while the current
value is falsy and the payload carries a string `session_id`. -/
def captureSession (st : AggState) (data : JVal) : AggState :=
  if !optTruthy st.observedSessionId then
    match getProp data keySessionId with
    | some (.jstr s) => { st with observedSessionId := some s }
    | _ => st
  else st

/-- agentos.ts lines 273-275: same for the run id. -/
def captureRun (st : AggState) (data : JVal) : AggState :=
  if !optTruthy st.runId then
    match getProp data keyRunId with
    | some (.jstr s) => { st with runId := some s }
    | _ => st
  else st

/-- agentos.ts lines 269-276: capture session and run ids from any
structure-typed payload while the current value is falsy. -/
def captureIds (st : AggState) (data : JVal) : AggState :=
  if objTruthy data then captureRun (captureSession st data) data else st

def kindTeamRunError : Str := "TeamRunError".data
def kindTeamRunContent : Str := "TeamRunContent".data
def kindTeamRunCompleted : Str := "TeamRunCompleted".data
def genericRunError : Str := "Team run failed.".data

/-- agentos.ts lines 279-285: the message of the thrown error. -/
def errMsgOf (data : JVal) : Str :=
  if objTruthy data then
    match getProp data keyContent with
    | some (.jstr c) => c
    | _ => genericRunError
  else genericRunError

/-- Record one emitted `MemberOutput` into the registries
(`memberIdentifiers.push`, `memberOutputs.set`, lines 243-247). -/
def applyOutput (st : AggState) (mo : MemberOutput) : AggState :=
  { st with
    memberIdentifiers := st.memberIdentifiers ++ [mo.identifier]
    memberOutputs :=
      mapSet st.memberOutputs mo.normalizedId
        (((mapGet st.memberOutputs mo.normalizedId).getD []) ++ [mo.text]) }

def applyOutputs (st : AggState) (outs : List MemberOutput) : AggState :=
  outs.foldl applyOutput st

/-- agentos.ts lines 289-296, the `TeamRunContent` branch: append the
normalized content (with a separating newline) to the accumulated
free-text, then record any nested member responses. -/
def consumeContent (st : AggState) (data : JVal) : AggState :=
  let st1 :=
    match getProp data keyContent with
    | some c => { st with aggregatedText := st.aggregatedText ++ nlStr ++ extractTextFromContent c }
    | none => st
  match getProp data keyMemberResponses with
  | some r => applyOutputs st1 (noteMemberResponses r)
  | none => st1

/-- agentos.ts lines 298-311, the `TeamRunCompleted` branch: record any
nested member responses, then let a non-blank normalized content field
replace the accumulated free-text wholesale. -/
def consumeCompleted (st : AggState) (data : JVal) : AggState :=
  let st1 :=
    match getProp data keyMemberResponses with
    | some r => applyOutputs st (noteMemberResponses r)
    | none => st
  match getProp data keyContent with
  | some c =>
    let completedText := extractTextFromContent c
    if trimStr completedText ≠ [] then { st1 with aggregatedText := completedText } else st1
  | none => st1

/-- The per-event body of `processBuffer` (agentos.ts lines 267-311):
id capture, then the error kind (which throws), then the incremental
content kind, then the terminal completed kind. -/
def consumeEvent (st0 : AggState) (ty : Str) (data : JVal) : Except Str AggState :=
  let st := captureIds st0 data
  if ty = kindTeamRunError then .error (errMsgOf data)
  else
    let st := if ty = kindTeamRunContent then consumeContent st data else st
    let st := if ty = kindTeamRunCompleted then consumeCompleted st data else st
    .ok st

/-- Decode and consume a list of raw frames in order; an error event
aborts the whole run (the thrown error propagates out of
`processBuffer` and fails `sendMessageToAgentOS`). -/
def processEvents (parse : Str → Option JVal) (st : AggState) : List Str → Except Str AggState
  | [] => .ok st
  | f :: fs =>
    match parseSSEEvent parse f with
    | none => processEvents parse st fs
    | some (ty, data) =>
      match consumeEvent st ty data with
      | .error e => .error e
      | .ok st' => processEvents parse st' fs

/-- agentos.ts lines 328-342: the three-tier resolution of the final
text from the finished aggregator state. -/
def finishText (st : AggState) (targetId : Str) : Str :=
  let targetOutputs := (mapGet st.memberOutputs targetId).getD []
  let cleanedTargetOutputs := targetOutputs.filter truthyStr
  let fallbackOutputs :=
    ((st.memberOutputs.filter (fun p => p.1 ≠ targetId)).map (fun p => p.2)).flatten.filter truthyStr
  let coordinatorFallback := sanitizeCoordinatorText st.aggregatedText
  if ¬cleanedTargetOutputs.isEmpty then List.intercalate ('\n' :: nlStr) cleanedTargetOutputs
  else if ¬fallbackOutputs.isEmpty then List.intercalate ('\n' :: nlStr) fallbackOutputs
  else coordinatorFallback

/-- `Array.from(new Set(memberIdentifiers))`: distinct values in order
of first appearance. -/
def dedupFirst : List Str → List Str
  | [] => []
  | x :: xs => x :: dedupFirst (xs.filter (fun y => y ≠ x))
termination_by l => l.length
decreasing_by
  have := List.length_filter_le (fun y => decide (y ≠ l)) ls
  simp at this ⊢
  omega

def idsMarker : Str := ('\n' :: '\n' :: "---\nIdentifiers seen:".data)

/-- agentos.ts lines 344-350: the returned `text` field — the trimmed
resolved answer, the literal marker, a space, and the comma-joined
distinct identifiers. -/
def runResultText (st : AggState) (targetId : Str) : Str :=
  trimStr (finishText st targetId) ++ idsMarker ++ ' ' ::
    List.intercalate (',' :: [' ']) (dedupFirst st.memberIdentifiers)

/- ===================== page.tsx: debug-suffix splitting ===================== -/

/-- `String.prototype.indexOf` for a pattern: index of the first
occurrence, `none` when absent (the original's `-1`). -/
def findSub (pat : Str) : Str → Option Nat
  | [] => if pat.isEmpty then some 0 else none
  | c :: rest =>
    if pat.isPrefixOf (c :: rest) then some 0
    else (findSub pat rest).map (fun n => n + 1)

/-- page.tsx lines 10-22: split a result into the display body and the
identifiers diagnostic, cutting at the first occurrence of the marker.
A null result is modelled by the caller passing the empty string (both
are falsy). -/
def splitDebugInfo (raw : Str) : Str × Str :=
  if raw.isEmpty then ([], [])
  else
    match findSub idsMarker raw with
    | none => (trimStr raw, [])
    | some idx => (trimStr (raw.take idx), trimStr (raw.drop (idx + idsMarker.length)))

/- ===================== page.tsx: stage gate flags =====================
The two gate flags of the orchestrator page, `showApprovalPrompt`
(awaiting approval) and `showRevisionInput` (awaiting revision text),
and the user actions that mutate them.  Each async handler is modelled
atomically by its outcome (the UI is single-threaded and the handlers
guard against re-entry with `isSubmitting`/`isGeneratingVisuals`).
The guards on each action are the render conditions of the controls
that trigger it (page.tsx lines 293, 313-314, 328-333) together with
the handlers' own early-return checks. -/

structure GateFlags where
  approval : Bool
  revision : Bool
deriving Repr, DecidableEq

/-- The user actions that touch the gate flags.  `Ok`/`Err`
distinguish a request handler completing normally or catching an
error. -/
inductive GateAction where
  | submitOk
  | submitErr
  | approveOk
  | approveErr
  | reject
  | revisionOk
  | revisionErr
  | revisionCancel
deriving Repr, DecidableEq

/-- The render/guard condition under which each action's control is
reachable: the approve/reject buttons render only when
`showApprovalPrompt && !isGeneratingVisuals && !showRevisionInput`
(page.tsx line 293), the revision form and its cancel button only when
`showRevisionInput` (lines 313-314, 328-333); the initial submit form
is independent of the gate flags. -/
def gateGuard (f : GateFlags) : GateAction → Prop
  | .submitOk => True
  | .submitErr => True
  | .approveOk => f.approval = true ∧ f.revision = false
  | .approveErr => f.approval = true ∧ f.revision = false
  | .reject => f.approval = true ∧ f.revision = false
  | .revisionOk => f.revision = true
  | .revisionErr => f.revision = true
  | .revisionCancel => f.revision = true

/-- The flag values after each handler completes (page.tsx:
`handleSubmit` lines 123-155, `handleApprove` lines 158-195 — which
sets only `showApprovalPrompt` to false, leaving `showRevisionInput`
untouched —, `handleReject` lines 197-201, `handleRevisionSubmit`
lines 203-249, and the revision cancel button lines 328-333). -/
def gateStepResult (f : GateFlags) : GateAction → GateFlags
  | .submitOk => ⟨true, false⟩
  | .submitErr => ⟨false, false⟩
  | .approveOk => ⟨false, f.revision⟩
  | .approveErr => ⟨false, f.revision⟩
  | .reject => ⟨false, true⟩
  | .revisionOk => ⟨true, false⟩
  | .revisionErr => ⟨false, false⟩
  | .revisionCancel => ⟨true, false⟩

/-- States reachable from the initial render (both gates closed). -/
inductive GateReachable : GateFlags → Prop where
  | init : GateReachable ⟨false, false⟩
  | step {f : GateFlags} (a : GateAction) :
      GateReachable f → gateGuard f a → GateReachable (gateStepResult f a)

/- ===================== Object-graph model =====================
`extractTextFromContent` again, but over the JavaScript object graph:
objects are references (`href`) into a heap, so shared and cyclic
structures are expressible (a `JSON.parse` result is always an acyclic
tree, which the `JVal` model above captures; this model exists to
settle what the function does on a hypothetical cyclic input).  The
functions carry fuel that decreases on every recursive call; running
out of fuel for every fuel value is non-termination of the original
recursion. -/

inductive HVal where
  | hnull : HVal
  | hbool : Bool → HVal
  | hnum : Int → HVal
  | hstr : Str → HVal
  | harr : List HVal → HVal
  | hobj : List (Str × HVal) → HVal
  | href : Nat → HVal
deriving Repr

abbrev Heap := Nat → List (Str × HVal)

def hlookup (fs : List (Str × HVal)) (k : Str) : Option HVal :=
  (fs.find? (fun p => p.1 == k)).map (fun p => p.2)

def strPropH (fs : List (Str × HVal)) (k : Str) : Option Str :=
  match hlookup fs k with
  | some (.hstr s) => some s
  | _ => none

mutual

def stringifyH (heap : Heap) : Nat → HVal → Option Str
  | 0, _ => none
  | _ + 1, .hnull => some ("null".data)
  | _ + 1, .hbool b => some (jsBoolStr b)
  | _ + 1, .hnum n => some (jsNumStr n)
  | _ + 1, .hstr s => some (quoteJson s)
  | f + 1, .harr xs =>
    (stringifyListH heap f xs).map (fun l => '[' :: (List.intercalate [','] l ++ [']']))
  | f + 1, .href a => stringifyH heap f (.hobj (heap a))
  | f + 1, .hobj fs =>
    (stringifyFieldsH heap f fs).map (fun l => lbraceC :: (List.intercalate [','] l ++ [rbraceC]))

def stringifyListH (heap : Heap) : Nat → List HVal → Option (List Str)
  | 0, _ => none
  | _ + 1, [] => some []
  | f + 1, x :: xs => do
    let s ← stringifyH heap f x
    let rest ← stringifyListH heap f xs
    pure (s :: rest)

def stringifyFieldsH (heap : Heap) : Nat → List (Str × HVal) → Option (List Str)
  | 0, _ => none
  | _ + 1, [] => some []
  | f + 1, (k, v) :: fs => do
    let s ← stringifyH heap f v
    let rest ← stringifyFieldsH heap f fs
    pure ((quoteJson k ++ ':' :: s) :: rest)

end

mutual

/-- `extractTextFromContent` over the object graph; mirrors the `JVal`
version clause by clause, with the extra `href` dereference step. -/
def extractTextH (heap : Heap) : Nat → HVal → Option Str
  | 0, _ => none
  | _ + 1, .hnull => some []
  | _ + 1, .hstr s => some s
  | _ + 1, .hbool b => some (jsBoolStr b)
  | _ + 1, .hnum n => some (jsNumStr n)
  | f + 1, .harr xs => (extractListH heap f xs).map joinTruthy
  | f + 1, .href a => extractTextH heap f (.hobj (heap a))
  | f + 1, .hobj fs => do
    let c5 ← arrCandH heap f fs keyContent
    let c6 ← arrCandH heap f fs keyMessages
    let c7 ← arrCandH heap f fs keyParts
    match firstPreferred [strPropH fs keyText, strPropH fs keyContent,
        strPropH fs keyResponse, strPropH fs keyOutput, c5, c6, c7] with
    | some s => some s
    | none =>
      match hlookup fs keyContent with
      | some (.hobj gs) => extractTextH heap f (.hobj gs)
      | some (.harr ys) => extractTextH heap f (.harr ys)
      | some (.href a) => extractTextH heap f (.href a)
      | _ => stringifyH heap f (.hobj fs)
termination_by f _ => (f, 2)

/-- The pushed candidate for an array-valued content/messages/parts
field (`inner none` when the field is not an array; `outer none` when
normalizing its elements runs out of fuel). -/
def arrCandH (heap : Heap) (f : Nat) (fs : List (Str × HVal)) (k : Str) : Option (Option Str) :=
  match hlookup fs k with
  | some (.harr ys) => (extractListH heap f ys).map (fun l => some (joinTruthy l))
  | _ => some none
termination_by (f, 1)

def extractListH (heap : Heap) : Nat → List HVal → Option (List Str)
  | 0, _ => none
  | _ + 1, [] => some []
  | f + 1, x :: xs => do
    let s ← extractTextH heap f x
    let rest ← extractListH heap f xs
    pure (s :: rest)
termination_by f _ => (f, 0)

end

mutual

/-- Reference-freeness: the value is a self-contained finite tree (the
shape every wire value has after `JSON.parse`). -/
def noRefs : HVal → Bool
  | .hnull => true
  | .hbool _ => true
  | .hnum _ => true
  | .hstr _ => true
  | .harr xs => noRefsL xs
  | .hobj fs => noRefsF fs
  | .href _ => false

def noRefsL : List HVal → Bool
  | [] => true
  | x :: xs => noRefs x && noRefsL xs

def noRefsF : List (Str × HVal) → Bool
  | [] => true
  | p :: fs => noRefs p.2 && noRefsF fs

end

mutual

def hsize : HVal → Nat
  | .hnull => 1
  | .hbool _ => 1
  | .hnum _ => 1
  | .hstr _ => 1
  | .href _ => 1
  | .harr xs => 1 + hsizeL xs
  | .hobj fs => 1 + hsizeF fs

def hsizeL : List HVal → Nat
  | [] => 1
  | x :: xs => 1 + hsize x + hsizeL xs

def hsizeF : List (Str × HVal) → Nat
  | [] => 1
  | p :: fs => 1 + hsize p.2 + hsizeF fs

end

theorem hsizeF_pos : ∀ fs : List (Str × HVal), 1 ≤ hsizeF fs := by
  intro fs
  cases fs <;> simp [hsizeF] <;> omega

theorem hsizeL_pos : ∀ l : List HVal, 1 ≤ hsizeL l := by
  intro l
  cases l <;> simp [hsizeL] <;> omega

theorem hlookup_mem {fs : List (Str × HVal)} {k : Str} {v : HVal}
    (h : hlookup fs k = some v) : ∃ a, (a, v) ∈ fs := by
  unfold hlookup at h
  cases hf : fs.find? (fun p => p.1 == k) with
  | none => rw [hf] at h; simp at h
  | some p =>
    rw [hf] at h
    simp at h
    subst h
    exact ⟨p.1, by simpa using List.mem_of_find?_eq_some hf⟩

theorem hsizeF_hlookup {fs : List (Str × HVal)} {k : Str} {v : HVal}
    (h : hlookup fs k = some v) : hsize v + 2 ≤ hsizeF fs := by
  obtain ⟨a, hmem⟩ := hlookup_mem h
  clear h
  induction fs with
  | nil => simp at hmem
  | cons q qs ih =>
    rcases List.mem_cons.mp hmem with heq | hmem'
    · subst heq
      have := hsizeF_pos qs
      simp [hsizeF]
      omega
    · have := ih hmem'
      simp [hsizeF]
      omega

theorem noRefsF_hlookup {fs : List (Str × HVal)} {k : Str} {v : HVal}
    (h : hlookup fs k = some v) (hn : noRefsF fs = true) : noRefs v = true := by
  obtain ⟨a, hmem⟩ := hlookup_mem h
  clear h
  induction fs with
  | nil => simp at hmem
  | cons q qs ih =>
    simp only [noRefsF, Bool.and_eq_true] at hn
    rcases List.mem_cons.mp hmem with heq | hmem'
    · subst heq
      exact hn.1
    · exact ih hn.2 hmem'

theorem hsize_pos : ∀ v : HVal, 1 ≤ hsize v := by
  intro v
  cases v <;> simp [hsize] <;> omega

theorem stringifyH_fuel (heap : Heap) : ∀ f : Nat,
    (∀ v, noRefs v = true → hsize v ≤ f → (stringifyH heap f v).isSome = true) ∧
    (∀ l, noRefsL l = true → hsizeL l ≤ f → (stringifyListH heap f l).isSome = true) ∧
    (∀ fs, noRefsF fs = true → hsizeF fs ≤ f → (stringifyFieldsH heap f fs).isSome = true) := by
  intro f
  induction f with
  | zero =>
    refine ⟨?_, ?_, ?_⟩ <;> intro x hn hs
    · have := hsize_pos x; omega
    · have := hsizeL_pos x; omega
    · have := hsizeF_pos x; omega
  | succ f ih =>
    obtain ⟨ihv, ihl, ihf⟩ := ih
    refine ⟨?_, ?_, ?_⟩
    · intro v hn hs
      cases v with
      | hnull => simp [stringifyH]
      | hbool b => simp [stringifyH]
      | hnum n => simp [stringifyH]
      | hstr s => simp [stringifyH]
      | href a => simp [noRefs] at hn
      | harr xs =>
        have hrec := ihl xs (by simpa [noRefs] using hn)
          (by simp [hsize] at hs; omega)
        cases hx : stringifyListH heap f xs with
        | none => rw [hx] at hrec; simp at hrec
        | some l => simp [stringifyH, hx]
      | hobj fs =>
        have hrec := ihf fs (by simpa [noRefs] using hn)
          (by simp [hsize] at hs; omega)
        cases hx : stringifyFieldsH heap f fs with
        | none => rw [hx] at hrec; simp at hrec
        | some l => simp [stringifyH, hx]
    · intro l hn hs
      cases l with
      | nil => simp [stringifyListH]
      | cons x xs =>
        simp only [noRefsL, Bool.and_eq_true] at hn
        simp only [hsizeL] at hs
        have h1 := ihv x hn.1 (by have := hsizeL_pos xs; omega)
        have h2 := ihl xs hn.2 (by have := hsize_pos x; omega)
        rw [Option.isSome_iff_exists] at h1 h2
        obtain ⟨s, hss⟩ := h1
        obtain ⟨rest, hrr⟩ := h2
        simp [stringifyListH, hss, hrr]
    · intro l hn hs
      cases l with
      | nil => simp [stringifyFieldsH]
      | cons p fs =>
        simp only [noRefsF, Bool.and_eq_true] at hn
        simp only [hsizeF] at hs
        have h1 := ihv p.2 hn.1 (by have := hsizeF_pos fs; omega)
        have h2 := ihf fs hn.2 (by have := hsize_pos p.2; omega)
        rw [Option.isSome_iff_exists] at h1 h2
        obtain ⟨s, hss⟩ := h1
        obtain ⟨rest, hrr⟩ := h2
        cases p with
        | mk k v => simp at hss; simp [stringifyFieldsH, hss, hrr]

theorem extractTextH_fuel (heap : Heap) : ∀ f : Nat,
    (∀ v, noRefs v = true → hsize v < f → (extractTextH heap f v).isSome = true) ∧
    (∀ l, noRefsL l = true → hsizeL l < f → (extractListH heap f l).isSome = true) := by
  intro f
  induction f with
  | zero =>
    refine ⟨?_, ?_⟩ <;> intro x hn hs <;> omega
  | succ f ih =>
    obtain ⟨ihv, ihl⟩ := ih
    have candSome : ∀ k fs, noRefsF fs = true → hsizeF fs ≤ f →
        (arrCandH heap f fs k).isSome = true := by
      intro k fs hn hs
      cases hlu : hlookup fs k with
      | none => simp [arrCandH, hlu]
      | some w =>
        cases w with
        | harr ys =>
          have hw : noRefsL ys = true := by
            have := noRefsF_hlookup hlu hn
            simpa [noRefs] using this
          have hsz : hsizeL ys < f := by
            have := hsizeF_hlookup hlu
            simp [hsize] at this
            omega
          have hrec := ihl ys hw hsz
          rw [Option.isSome_iff_exists] at hrec
          obtain ⟨l, hl⟩ := hrec
          simp [arrCandH, hlu, hl]
        | hnull => simp [arrCandH, hlu]
        | hbool b => simp [arrCandH, hlu]
        | hnum n => simp [arrCandH, hlu]
        | hstr s => simp [arrCandH, hlu]
        | hobj gs => simp [arrCandH, hlu]
        | href a => simp [arrCandH, hlu]
    refine ⟨?_, ?_⟩
    · intro v hn hs
      cases v with
      | hnull => simp [extractTextH]
      | hstr s => simp [extractTextH]
      | hbool b => simp [extractTextH]
      | hnum n => simp [extractTextH]
      | href a => simp [noRefs] at hn
      | harr xs =>
        have hrec := ihl xs (by simpa [noRefs] using hn)
          (by simp [hsize] at hs; omega)
        rw [Option.isSome_iff_exists] at hrec
        obtain ⟨l, hl⟩ := hrec
        simp [extractTextH, hl]
      | hobj fs =>
        have hnf : noRefsF fs = true := by simpa [noRefs] using hn
        have hsf : hsizeF fs ≤ f := by simp [hsize] at hs; omega
        have h5 := candSome keyContent fs hnf hsf
        have h6 := candSome keyMessages fs hnf hsf
        have h7 := candSome keyParts fs hnf hsf
        rw [Option.isSome_iff_exists] at h5 h6 h7
        obtain ⟨c5, hc5⟩ := h5
        obtain ⟨c6, hc6⟩ := h6
        obtain ⟨c7, hc7⟩ := h7
        simp only [extractTextH, hc5, hc6, hc7, Option.bind_eq_bind', Option.some_bind]
        split
        next s hfp => simp
        next hfp =>
          split
          next gs heq =>
            have hw := noRefsF_hlookup heq hnf
            have hwsz := hsizeF_hlookup heq
            have := ihv (.hobj gs) hw (by simp [hsize] at hwsz ⊢; omega)
            simpa using this
          next ys heq =>
            have hw := noRefsF_hlookup heq hnf
            have hwsz := hsizeF_hlookup heq
            have := ihv (.harr ys) hw (by simp [hsize] at hwsz ⊢; omega)
            simpa using this
          next a heq =>
            have hw := noRefsF_hlookup heq hnf
            simp [noRefs] at hw
          next =>
            have := (stringifyH_fuel heap f).1 (.hobj fs) hn (by omega)
            simpa using this
    · intro l hn hs
      cases l with
      | nil => simp [extractListH]
      | cons x xs =>
        simp only [noRefsL, Bool.and_eq_true] at hn
        simp only [hsizeL] at hs
        have h1 := ihv x hn.1 (by have := hsizeL_pos xs; omega)
        have h2 := ihl xs hn.2 (by have := hsize_pos x; omega)
        rw [Option.isSome_iff_exists] at h1 h2
        obtain ⟨s, hss⟩ := h1
        obtain ⟨rest, hrr⟩ := h2
        simp [extractListH, hss, hrr]

/-- Non-termination in the fuel semantics: the computation fails for
every fuel value, i.e. the original recursion never returns. -/
def DivergesOn (heap : Heap) (v : HVal) : Prop :=
  ∀ f : Nat, extractTextH heap f v = none

/-- A one-object cyclic heap: address 0 holds `\x7b content: <itself> \x7d`. -/
def cycHeap : Heap := fun _ => [(keyContent, .href 0)]

theorem cycHeap_diverges_both :
    ∀ f : Nat, extractTextH cycHeap f (.href 0) = none ∧
      extractTextH cycHeap f (.hobj [(keyContent, .href 0)]) = none := by
  intro f
  induction f with
  | zero => exact ⟨by simp [extractTextH], by simp [extractTextH]⟩
  | succ f ih =>
    have hlC : hlookup [(keyContent, HVal.href 0)] keyContent = some (.href 0) := rfl
    have hlM : hlookup [(keyContent, HVal.href 0)] keyMessages = none := rfl
    have hlP : hlookup [(keyContent, HVal.href 0)] keyParts = none := rfl
    constructor
    · have h1 : extractTextH cycHeap (f + 1) (.href 0) =
          extractTextH cycHeap f (.hobj (cycHeap 0)) := by
        simp [extractTextH]
      rw [h1]
      exact ih.2
    · have harm : arrCandH cycHeap f [(keyContent, .href 0)] keyContent = some none := by
        simp [arrCandH, hlC]
      have hm : arrCandH cycHeap f [(keyContent, .href 0)] keyMessages = some none := by
        simp [arrCandH, hlM]
      have hp : arrCandH cycHeap f [(keyContent, .href 0)] keyParts = some none := by
        simp [arrCandH, hlP]
      simp only [extractTextH, harm, hm, hp, Option.bind_eq_bind', Option.some_bind]
      have hfp : firstPreferred [strPropH [(keyContent, .href 0)] keyText,
          strPropH [(keyContent, .href 0)] keyContent,
          strPropH [(keyContent, .href 0)] keyResponse,
          strPropH [(keyContent, .href 0)] keyOutput, none, none, none] = none := rfl
      rw [hfp]
      simp only [hlC]
      exact ih.1

/- ===================== Supporting lemmas ===================== -/

theorem dropWhile_idem {p : Char → Bool} :
    ∀ l : Str, List.dropWhile p (List.dropWhile p l) = List.dropWhile p l := by
  intro l
  induction l with
  | nil => simp
  | cons c rest ih =>
    by_cases hc : p c = true
    · simp [List.dropWhile_cons, hc, ih]
    · simp at hc
      simp [List.dropWhile_cons, hc]

theorem dropWhile_head_false {p : Char → Bool} :
    ∀ {l c rest}, List.dropWhile p l = c :: rest → p c = false := by
  intro l
  induction l with
  | nil => intro c rest h; simp at h
  | cons d ds ih =>
    intro c rest h
    by_cases hd : p d = true
    · rw [List.dropWhile_cons, if_pos hd] at h
      exact ih h
    · simp at hd
      rw [List.dropWhile_cons, if_neg (by simp [hd])] at h
      cases h
      exact hd

/-- Trimming is idempotent. -/
theorem trimStr_idem (s : Str) : trimStr (trimStr s) = trimStr s := by
  unfold trimStr
  set u := s.dropWhile isWsChar with hu
  set t := (u.reverse.dropWhile isWsChar).reverse with ht
  have htrev : t.reverse = u.reverse.dropWhile isWsChar := by rw [ht]; simp
  have h1 : t.dropWhile isWsChar = t := by
    cases hc : t with
    | nil => simp
    | cons c rest =>
      have hpre : t <+: u := by
        rw [ht]
        have hsuf : u.reverse.dropWhile isWsChar <:+ u.reverse := List.dropWhile_suffix _
        have := List.reverse_prefix.mpr (by simpa using hsuf : (u.reverse.dropWhile isWsChar) <:+ u.reverse)
        simpa using this
      obtain ⟨k, hk⟩ := hpre
      rw [hc] at hk
      have hs2 : List.dropWhile isWsChar s = c :: (rest ++ k) := by
        rw [← hu, ← hk]
        simp
      have hcfalse : isWsChar c = false := dropWhile_head_false hs2
      rw [List.dropWhile_cons, if_neg (by simp [hcfalse])]
  have h2 : t.reverse.dropWhile isWsChar = t.reverse := by
    rw [htrev]
    exact dropWhile_idem _
  rw [h1, h2]
  simp

theorem trimStr_eq_nil_iff (s : Str) : trimStr s = [] ↔ ∀ c ∈ s, isWsChar c = true := by
  unfold trimStr
  constructor
  · intro h c hc
    have h2 : (s.dropWhile isWsChar).reverse.dropWhile isWsChar = [] := by
      have := congrArg List.reverse h
      simpa using this
    rw [List.dropWhile_eq_nil_iff] at h2
    by_cases hmem : c ∈ s.dropWhile isWsChar
    · exact h2 c (by simpa using hmem)
    · have hsplit : s = s.takeWhile isWsChar ++ s.dropWhile isWsChar := by
        simp [List.takeWhile_append_dropWhile]
      rw [hsplit] at hc
      rcases List.mem_append.mp hc with htk | hdw
      · exact List.mem_takeWhile_imp htk
      · exact absurd hdw hmem
  · intro h
    have h1 : s.dropWhile isWsChar = [] := List.dropWhile_eq_nil_iff.mpr h
    rw [h1]
    simp

theorem aggregatedText_applyOutputs (st : AggState) (outs : List MemberOutput) :
    (applyOutputs st outs).aggregatedText = st.aggregatedText := by
  induction outs generalizing st with
  | nil => rfl
  | cons o os ih => simpa [applyOutputs, List.foldl_cons, applyOutput] using ih _

theorem ids_applyOutputs (st : AggState) (outs : List MemberOutput) :
    (applyOutputs st outs).observedSessionId = st.observedSessionId ∧
      (applyOutputs st outs).runId = st.runId := by
  induction outs generalizing st with
  | nil => exact ⟨rfl, rfl⟩
  | cons o os ih => simpa [applyOutputs, List.foldl_cons, applyOutput] using ih _

theorem captureSession_fields (st : AggState) (d : JVal) :
    (captureSession st d).aggregatedText = st.aggregatedText ∧
      (captureSession st d).memberOutputs = st.memberOutputs ∧
      (captureSession st d).memberIdentifiers = st.memberIdentifiers ∧
      (captureSession st d).runId = st.runId := by
  unfold captureSession
  repeat' split
  all_goals exact ⟨rfl, rfl, rfl, rfl⟩

theorem captureRun_fields (st : AggState) (d : JVal) :
    (captureRun st d).aggregatedText = st.aggregatedText ∧
      (captureRun st d).memberOutputs = st.memberOutputs ∧
      (captureRun st d).memberIdentifiers = st.memberIdentifiers ∧
      (captureRun st d).observedSessionId = st.observedSessionId := by
  unfold captureRun
  repeat' split
  all_goals exact ⟨rfl, rfl, rfl, rfl⟩

theorem aggregatedText_captureIds (st : AggState) (d : JVal) :
    (captureIds st d).aggregatedText = st.aggregatedText := by
  unfold captureIds
  split
  · rw [(captureRun_fields _ _).1, (captureSession_fields _ _).1]
  · rfl

theorem memberOutputs_captureIds (st : AggState) (d : JVal) :
    (captureIds st d).memberOutputs = st.memberOutputs ∧
      (captureIds st d).memberIdentifiers = st.memberIdentifiers := by
  unfold captureIds
  split
  · exact ⟨by rw [(captureRun_fields _ _).2.1, (captureSession_fields _ _).2.1],
      by rw [(captureRun_fields _ _).2.2.1, (captureSession_fields _ _).2.2.1]⟩
  · exact ⟨rfl, rfl⟩

/-- A truthy session id is never overwritten. -/
theorem captureIds_session_preserved (st : AggState) (d : JVal)
    (hs : optTruthy st.observedSessionId = true) :
    (captureIds st d).observedSessionId = st.observedSessionId := by
  unfold captureIds
  split
  · rw [(captureRun_fields _ _).2.2.2]
    unfold captureSession
    rw [if_neg (by simp [hs])]
  · rfl

/-- A truthy run id is never overwritten. -/
theorem captureIds_run_preserved (st : AggState) (d : JVal)
    (hr : optTruthy st.runId = true) :
    (captureIds st d).runId = st.runId := by
  unfold captureIds
  split
  · have hrun : (captureSession st d).runId = st.runId := (captureSession_fields _ _).2.2.2
    unfold captureRun
    rw [if_neg (by simp [hrun, hr]), hrun]
  · rfl

/-- Only an error-kind event makes the consumer throw. -/
theorem consumeEvent_err (st : AggState) (ty : Str) (d : JVal)
    (hty : ty = kindTeamRunError) : consumeEvent st ty d = .error (errMsgOf d) := by
  unfold consumeEvent
  rw [if_pos hty]

theorem consumeEvent_ok (st : AggState) (ty : Str) (d : JVal)
    (hty : ty ≠ kindTeamRunError) : ∃ st', consumeEvent st ty d = .ok st' := by
  unfold consumeEvent
  rw [if_neg hty]
  exact ⟨_, rfl⟩

theorem consumeContent_ids (st : AggState) (d : JVal) :
    (consumeContent st d).observedSessionId = st.observedSessionId ∧
      (consumeContent st d).runId = st.runId := by
  unfold consumeContent
  dsimp only
  repeat' split
  all_goals simp [(ids_applyOutputs _ _).1, (ids_applyOutputs _ _).2]

theorem consumeCompleted_ids (st : AggState) (d : JVal) :
    (consumeCompleted st d).observedSessionId = st.observedSessionId ∧
      (consumeCompleted st d).runId = st.runId := by
  unfold consumeCompleted
  dsimp only
  repeat' split
  all_goals simp [(ids_applyOutputs _ _).1, (ids_applyOutputs _ _).2]

/-- A successful consumption never overwrites a truthy session id or a
truthy run id. -/
theorem consumeEvent_ids (st : AggState) (ty : Str) (d : JVal) (st' : AggState)
    (h : consumeEvent st ty d = .ok st') :
    (optTruthy st.observedSessionId = true →
      st'.observedSessionId = st.observedSessionId) ∧
    (optTruthy st.runId = true → st'.runId = st.runId) := by
  by_cases hty : ty = kindTeamRunError
  · rw [consumeEvent_err st ty d hty] at h
    simp at h
  · unfold consumeEvent at h
    rw [if_neg hty] at h
    simp only [Except.ok.injEq] at h
    subst h
    constructor
    · intro htr
      repeat' split
      all_goals simp [(consumeCompleted_ids _ _).1, (consumeContent_ids _ _).1,
        captureIds_session_preserved _ _ htr]
    · intro htr
      repeat' split
      all_goals simp [(consumeCompleted_ids _ _).2, (consumeContent_ids _ _).2,
        captureIds_run_preserved _ _ htr]

theorem processEvents_ids :
    ∀ (frames : List Str) (parse : Str → Option JVal) (st st' : AggState),
      processEvents parse st frames = .ok st' →
      (optTruthy st.observedSessionId = true →
        st'.observedSessionId = st.observedSessionId) ∧
      (optTruthy st.runId = true → st'.runId = st.runId) := by
  intro frames
  induction frames with
  | nil =>
    intro parse st st' h
    simp [processEvents] at h
    subst h
    exact ⟨fun _ => rfl, fun _ => rfl⟩
  | cons g gs ih =>
    intro parse st st' h
    unfold processEvents at h
    cases hp : parseSSEEvent parse g with
    | none =>
      rw [hp] at h
      exact ih parse st st' h
    | some p =>
      obtain ⟨ty, data⟩ := p
      rw [hp] at h
      simp only at h
      cases hc : consumeEvent st ty data with
      | error e => rw [hc] at h; simp at h
      | ok st1 =>
        rw [hc] at h
        simp only at h
        have hpres := consumeEvent_ids st ty data st1 hc
        have hih := ih parse st1 st' h
        constructor
        · intro htr
          have h1 := hpres.1 htr
          have h2 := hih.1 (by rw [h1]; exact htr)
          rw [h2, h1]
        · intro htr
          have h1 := hpres.2 htr
          have h2 := hih.2 (by rw [h1]; exact htr)
          rw [h2, h1]

theorem processEvents_error :
    ∀ (pre : List Str) (parse : Str → Option JVal) (st : AggState)
      (g : Str) (post : List Str) (d : JVal),
      (∀ g' ∈ pre, ∀ d', parseSSEEvent parse g' ≠ some (kindTeamRunError, d')) →
      parseSSEEvent parse g = some (kindTeamRunError, d) →
      processEvents parse st (pre ++ g :: post) = .error (errMsgOf d) := by
  intro pre
  induction pre with
  | nil =>
    intro parse st g post d _ hg
    rw [List.nil_append]
    have hstep : processEvents parse st (g :: post) =
        match parseSSEEvent parse g with
        | none => processEvents parse st post
        | some (ty, data) =>
          match consumeEvent st ty data with
          | .error e => .error e
          | .ok st1 => processEvents parse st1 post := rfl
    rw [hstep, hg]
    show (match consumeEvent st kindTeamRunError d with
      | .error e => (.error e : Except Str AggState)
      | .ok st1 => processEvents parse st1 post) = .error (errMsgOf d)
    rw [consumeEvent_err st kindTeamRunError d rfl]
  | cons f fs ih =>
    intro parse st g post d hpre hg
    rw [List.cons_append]
    unfold processEvents
    cases hp : parseSSEEvent parse f with
    | none => exact ih parse st g post d (fun x hx => hpre x (List.mem_cons_of_mem f hx)) hg
    | some p =>
      obtain ⟨ty, data⟩ := p
      have hne : ty ≠ kindTeamRunError := by
        intro hcontr
        exact hpre f (List.mem_cons_self f fs) data (by rw [hp, hcontr])
      obtain ⟨st1, hok⟩ := consumeEvent_ok st ty data hne
      simp only
      rw [hok]
      exact ih parse st1 g post d (fun x hx => hpre x (List.mem_cons_of_mem f hx)) hg

/- ===================== Claim theorems ===================== -/

/-- C1: for every way of splitting a stream into successive chunks,
feeding the chunks to the frame splitter yields the identical ordered
sequence of extracted frames (and the same retained buffer) as
processing the whole stream at once; in particular any two
segmentations of the same stream agree. -/
theorem C1_frame_splitter_chunking_invariant :
    ∀ chunks : List Str, feedChunks chunks = drainFrames (joinAll chunks) := by
  intro chunks
  unfold feedChunks
  rw [feedChunks_go chunks ([], []) (by simp [splitFirst])]
  simp

/-- C2: if the decoded stream contains a frame of kind `TeamRunError`
(and no earlier error frame), the whole request fails with the
payload's string `content` field as the message, or the generic
"Team run failed." when the payload carries no such field. -/
theorem C2_run_error_fails_request :
    ∀ (parse : Str → Option JVal) (st : AggState) (pre : List Str)
      (g : Str) (post : List Str) (ty : Str) (d : JVal),
      (∀ g' ∈ pre, ∀ d', parseSSEEvent parse g' ≠ some (kindTeamRunError, d')) →
      parseSSEEvent parse g = some (ty, d) → ty = kindTeamRunError →
      processEvents parse st (pre ++ g :: post) = .error (errMsgOf d) := by
  intro parse st pre g post ty d hpre hg hty
  subst hty
  exact processEvents_error pre parse st g post d hpre hg

def jsonQuota : Str := "\x7b\"content\":\"quota exceeded\"\x7d".data

def testParse : Str → Option JVal :=
  fun s => if s = jsonQuota then some (.jobj [(keyContent, .jstr "quota exceeded".data)]) else none

def qFrame : Str := "event: TeamRunError\ndata: \x7b\"content\":\"quota exceeded\"\x7d".data

theorem C2_witness :
    parseSSEEvent testParse qFrame =
      some (kindTeamRunError, .jobj [(keyContent, .jstr "quota exceeded".data)]) ∧
    processEvents testParse (initAggState none) [qFrame] =
      .error ("quota exceeded".data) ∧
    errMsgOf (.jobj [(keyContent, .jstr "quota exceeded".data)]) = "quota exceeded".data := by
  refine ⟨rfl, ?_, rfl⟩
  have := C2_run_error_fails_request testParse (initAggState none) [] qFrame []
    kindTeamRunError (.jobj [(keyContent, .jstr "quota exceeded".data)])
    (by intro g' hg'; simp at hg') rfl rfl
  simpa using this

/-- C8: the observed session id is first-non-empty-wins — once the
aggregator state holds a non-empty session id (seeded by the caller or
captured from an earlier event), no later event changes it; the same
holds for the run id. -/
theorem C8_ids_first_nonempty_wins :
    ∀ (parse : Str → Option JVal) (st : AggState) (frames : List Str)
      (st' : AggState) (s r : Str),
      processEvents parse st frames = .ok st' →
      (st.observedSessionId = some s → s ≠ [] → st'.observedSessionId = some s) ∧
      (st.runId = some r → r ≠ [] → st'.runId = some r) := by
  intro parse st frames st' s r h
  have hids := processEvents_ids frames parse st st' h
  constructor
  · intro hs hne
    have : optTruthy st.observedSessionId = true := by
      rw [hs]
      simpa [optTruthy] using hne
    rw [hids.1 this, hs]
  · intro hr hne
    have : optTruthy st.runId = true := by
      rw [hr]
      simpa [optTruthy] using hne
    rw [hids.2 this, hr]

def sessFrame : Str := "event: RunResponse\ndata: sess".data

def sessParse : Str → Option JVal :=
  fun s =>
    if s = "sess".data then
      some (.jobj [(keySessionId, .jstr "other".data), (keyRunId, .jstr "r2".data)])
    else none

def sessState : AggState :=
  { aggregatedText := []
    memberOutputs := []
    memberIdentifiers := []
    observedSessionId := some "s1".data
    runId := some "r1".data }

theorem C8_witness :
    processEvents sessParse sessState [sessFrame] = .ok sessState ∧
    sessState.observedSessionId = some "s1".data ∧
    sessState.runId = some "r1".data := by
  refine ⟨rfl, ?_, ?_⟩
  · exact (C8_ids_first_nonempty_wins sessParse sessState [sessFrame] sessState
      "s1".data "r1".data rfl).1 rfl (by decide)
  · exact (C8_ids_first_nonempty_wins sessParse sessState [sessFrame] sessState
      "s1".data "r1".data rfl).2 rfl (by decide)

/-- C3: an incremental content event appends its normalized text (with
a separating newline) to the accumulated free-text, and a following
terminal completed event whose content normalizes to a string with
non-blank trim replaces the accumulation wholesale with that string;
when the terminal content normalizes to an empty or whitespace-only
string the previous accumulation is kept unchanged. -/
theorem C3_terminal_overwrite :
    ∀ (st : AggState) (d1 d2 c1 c2 : JVal) (A B : Str) (st1 st2 : AggState),
      getProp d1 keyContent = some c1 → extractTextFromContent c1 = A →
      getProp d2 keyContent = some c2 → extractTextFromContent c2 = B →
      consumeEvent st kindTeamRunContent d1 = .ok st1 →
      consumeEvent st1 kindTeamRunCompleted d2 = .ok st2 →
      st1.aggregatedText = st.aggregatedText ++ nlStr ++ A ∧
      st2.aggregatedText =
        (if trimStr B = [] then st.aggregatedText ++ nlStr ++ A else B) := by
  intro st d1 d2 c1 c2 A B st1 st2 h1 hA h2 hB hc1 hc2
  have he1 : consumeEvent st kindTeamRunContent d1 =
      .ok (consumeContent (captureIds st d1) d1) := rfl
  rw [he1] at hc1
  simp only [Except.ok.injEq] at hc1
  subst hc1
  have hst1 : (consumeContent (captureIds st d1) d1).aggregatedText =
      st.aggregatedText ++ nlStr ++ A := by
    unfold consumeContent
    dsimp only
    rw [h1]
    cases hmr : getProp d1 keyMemberResponses with
    | none => simp [aggregatedText_captureIds, hA]
    | some r => simp [aggregatedText_applyOutputs, aggregatedText_captureIds, hA]
  refine ⟨hst1, ?_⟩
  have he2 : consumeEvent (consumeContent (captureIds st d1) d1) kindTeamRunCompleted d2 =
      .ok (consumeCompleted (captureIds (consumeContent (captureIds st d1) d1) d2) d2) := rfl
  rw [he2] at hc2
  simp only [Except.ok.injEq] at hc2
  subst hc2
  have hmidagg : (captureIds (consumeContent (captureIds st d1) d1) d2).aggregatedText =
      st.aggregatedText ++ nlStr ++ A := by
    rw [aggregatedText_captureIds, hst1]
  unfold consumeCompleted
  dsimp only
  rw [h2]
  dsimp only
  rw [hB]
  by_cases htrim : trimStr B = []
  · rw [if_neg (by simp [htrim]), if_pos htrim]
    cases hmr : getProp d2 keyMemberResponses with
    | none => simp [hmidagg]
    | some r => simp [aggregatedText_applyOutputs, hmidagg]
  · rw [if_pos (by simp [htrim]), if_neg htrim]

def d1c : JVal := .jobj [(keyContent, .jstr "A".data)]
def d2c : JVal := .jobj [(keyContent, .jstr "B".data)]

theorem C3_witness :
    (consumeContent (captureIds (initAggState none) d1c) d1c).aggregatedText =
      '\n' :: "A".data ∧
    (consumeCompleted (captureIds (consumeContent (captureIds (initAggState none) d1c) d1c)
        d2c) d2c).aggregatedText = "B".data := by
  have h := C3_terminal_overwrite (initAggState none) d1c d2c
    (.jstr "A".data) (.jstr "B".data) "A".data "B".data
    (consumeContent (captureIds (initAggState none) d1c) d1c)
    (consumeCompleted (captureIds (consumeContent (captureIds (initAggState none) d1c) d1c)
      d2c) d2c)
    rfl (by simp [extractTextFromContent]) rfl (by simp [extractTextFromContent]) rfl rfl
  constructor
  · have := h.1
    simpa [initAggState, nlStr] using this
  · have := h.2
    rw [if_neg (by decide)] at this
    exact this

theorem mapGet_mem {m : List (Str × List Str)} {k : Str} {l : List Str}
    (h : mapGet m k = some l) : ∃ a, (a, l) ∈ m := by
  unfold mapGet at h
  cases hf : m.find? (fun p => p.1 == k) with
  | none => rw [hf] at h; simp at h
  | some p =>
    rw [hf] at h
    simp at h
    subst h
    exact ⟨p.1, by simpa using List.mem_of_find?_eq_some hf⟩

/-- C4: the three-tier fallback of `finish`.  For any final aggregator
state whose recorded outputs are all non-empty (an invariant of every
reachable state, since `noteMemberResponses` only records non-empty
cleaned text): if the normalized target has recorded outputs, the
result text is those outputs joined with a blank line; otherwise, if
any other member has outputs, the result is all non-target outputs
joined with a blank line; otherwise it is the sanitized accumulated
free-text. -/
theorem C4_finish_three_tier :
    ∀ (st : AggState) (target : Str),
      (∀ p ∈ st.memberOutputs, ∀ o ∈ p.2, o ≠ []) →
      (((mapGet st.memberOutputs target).getD [] ≠ [] →
        finishText st target =
          List.intercalate ('\n' :: nlStr) ((mapGet st.memberOutputs target).getD [])) ∧
      ((mapGet st.memberOutputs target).getD [] = [] →
        ((st.memberOutputs.filter (fun p => p.1 ≠ target)).map (fun p => p.2)).flatten ≠ [] →
        finishText st target = List.intercalate ('\n' :: nlStr)
          ((st.memberOutputs.filter (fun p => p.1 ≠ target)).map (fun p => p.2)).flatten) ∧
      ((mapGet st.memberOutputs target).getD [] = [] →
        ((st.memberOutputs.filter (fun p => p.1 ≠ target)).map (fun p => p.2)).flatten = [] →
        finishText st target = sanitizeCoordinatorText st.aggregatedText)) := by
  intro st target hclean
  have htf : ((mapGet st.memberOutputs target).getD []).filter truthyStr =
      (mapGet st.memberOutputs target).getD [] := by
    rw [List.filter_eq_self]
    intro o ho
    cases hmg : mapGet st.memberOutputs target with
    | none => rw [hmg] at ho; simp at ho
    | some l =>
      rw [hmg] at ho
      simp at ho
      obtain ⟨a, ha⟩ := mapGet_mem hmg
      have := hclean (a, l) ha o ho
      simpa [truthyStr] using this
  have hff : (((st.memberOutputs.filter (fun p => p.1 ≠ target)).map
        (fun p => p.2)).flatten).filter truthyStr =
      ((st.memberOutputs.filter (fun p => p.1 ≠ target)).map (fun p => p.2)).flatten := by
    rw [List.filter_eq_self]
    intro o ho
    rw [List.mem_flatten] at ho
    obtain ⟨l, hl, hol⟩ := ho
    rw [List.mem_map] at hl
    obtain ⟨p, hp, rfl⟩ := hl
    have hpm := List.mem_of_mem_filter hp
    have := hclean p hpm o hol
    simpa [truthyStr] using this
  unfold finishText
  dsimp only
  rw [htf, hff]
  refine ⟨?_, ?_, ?_⟩
  · intro hne
    rw [if_pos (by simpa using hne)]
  · intro hnil hne
    rw [if_neg (by simpa using hnil), if_pos (by simpa using hne)]
  · intro hnil hnil2
    rw [if_neg (by simpa using hnil), if_neg (by simpa using hnil2)]

def c4State : AggState :=
  { aggregatedText := " hello ".data
    memberOutputs := [("visualagent".data, ["img one".data])]
    memberIdentifiers := ["visualagent".data]
    observedSessionId := none
    runId := none }

theorem C4_witness : finishText c4State "researchagent".data = "img one".data := by
  have h := (C4_finish_three_tier c4State "researchagent".data
    (by decide)).2.1 (by decide) (by decide)
  rw [h]
  decide

/- ===================== C7 spec-side decoder characterization ===================== -/

def isEvLine (l : Str) : Bool := evMarker.isPrefixOf l
def isDaLine (l : Str) : Bool := daMarker.isPrefixOf l
def evVal (l : Str) : Str := trimStr (l.drop evMarker.length)
def daVal (l : Str) : Str := trimStr (l.drop daMarker.length)

/-- The kind the claim describes: the value of the last `event:` line,
defaulting to "message". -/
def lastEventKind (lines : List Str) : Str :=
  match lines.reverse.find? isEvLine with
  | some l => evVal l
  | none => msgKind

/-- The ordered trimmed values of the `data:` lines (an `event:` line
is never a data line). -/
def dataLinesOf (lines : List Str) : List Str :=
  lines.filterMap (fun l =>
    if isEvLine l then none
    else if isDaLine l then some (daVal l)
    else none)

theorem find?_append {α : Type} {p : α → Bool} :
    ∀ xs ys : List α, List.find? p (xs ++ ys) =
      ((List.find? p xs).orElse (fun _ => List.find? p ys)) := by
  intro xs ys
  induction xs with
  | nil => simp
  | cons x xs ih =>
    by_cases hx : p x = true
    · simp [List.find?_cons, hx]
    · simp only [Bool.not_eq_true] at hx
      simp [List.find?_cons, hx, ih]

theorem sseScan_go :
    ∀ (lines : List Str) (ty : Str) (ds : List Str),
      List.foldl sseStep (ty, ds) lines =
        ((match lines.reverse.find? isEvLine with
          | some l => evVal l
          | none => ty),
          ds ++ dataLinesOf lines) := by
  intro lines
  induction lines with
  | nil => intro ty ds; simp [dataLinesOf]
  | cons l ls ih =>
    intro ty ds
    rw [List.foldl_cons]
    by_cases hev : evMarker.isPrefixOf l = true
    · have hev' : evMarker <+: l := by
        rw [← List.isPrefixOf_iff_prefix]
        exact hev
      rw [show sseStep (ty, ds) l = (evVal l, ds) by simp [sseStep, hev, evVal]]
      rw [ih]
      have hfind : (l :: ls).reverse.find? isEvLine =
          ((ls.reverse.find? isEvLine).orElse (fun _ => some l)) := by
        rw [List.reverse_cons, find?_append]
        simp [List.find?_cons, isEvLine, hev]
      rw [hfind]
      have hdata : dataLinesOf (l :: ls) = dataLinesOf ls := by
        simp [dataLinesOf, List.filterMap_cons, isEvLine, hev']
      rw [hdata]
      cases hf : ls.reverse.find? isEvLine <;> simp [Option.orElse]
    · simp only [Bool.not_eq_true] at hev
      have hev' : ¬(evMarker <+: l) := by
        rw [← List.isPrefixOf_iff_prefix]
        simp [hev]
      have hfind : (l :: ls).reverse.find? isEvLine = ls.reverse.find? isEvLine := by
        rw [List.reverse_cons, find?_append]
        cases hf : ls.reverse.find? isEvLine <;>
          simp [List.find?_cons, isEvLine, hev, Option.orElse]
      by_cases hda : daMarker.isPrefixOf l = true
      · have hda' : daMarker <+: l := by
          rw [← List.isPrefixOf_iff_prefix]
          exact hda
        rw [show sseStep (ty, ds) l = (ty, ds ++ [daVal l]) by simp [sseStep, hev, hda, daVal]]
        rw [ih, hfind]
        have hdata : dataLinesOf (l :: ls) = daVal l :: dataLinesOf ls := by
          simp [dataLinesOf, List.filterMap_cons, isEvLine, isDaLine, hev', hda, hda']
        rw [hdata]
        simp
      · simp only [Bool.not_eq_true] at hda
        have hda' : ¬(daMarker <+: l) := by
          rw [← List.isPrefixOf_iff_prefix]
          simp [hda]
        rw [show sseStep (ty, ds) l = (ty, ds) by simp [sseStep, hev, hda]]
        rw [ih, hfind]
        have hdata : dataLinesOf (l :: ls) = dataLinesOf ls := by
          simp [dataLinesOf, List.filterMap_cons, isEvLine, isDaLine, hev', hda, hda']
        rw [hdata]

/-- The payload the claim describes: null when the joined data lines
are empty, the parse result when structured parsing succeeds, and the
raw joined string otherwise. -/
def ssePayload (parse : Str → Option JVal) (lines : List Str) : JVal :=
  let dj := List.intercalate nlStr (dataLinesOf lines)
  if dj = [] then .jnull
  else
    match parse dj with
    | some v => v
    | none => .jstr dj

/-- C7: the event decoder returns null exactly for an empty or
whitespace-only frame; otherwise it returns the kind taken from the
last `event:` line (defaulting to "message") and the payload described
by `ssePayload` — null for no data, the JSON parse when it succeeds,
and the raw joined data string when parsing fails. -/
theorem C7_event_decoder :
    ∀ (parse : Str → Option JVal) (raw : Str),
      (parseSSEEvent parse raw = none ↔ ∀ c ∈ raw, isWsChar c = true) ∧
      ((¬∀ c ∈ raw, isWsChar c = true) →
        parseSSEEvent parse raw =
          some (lastEventKind (splitLines raw), ssePayload parse (splitLines raw))) := by
  intro parse raw
  have hscan : sseScan (splitLines raw) =
      (lastEventKind (splitLines raw), dataLinesOf (splitLines raw)) := by
    unfold sseScan lastEventKind
    rw [sseScan_go]
    simp
  constructor
  · constructor
    · intro h
      unfold parseSSEEvent at h
      by_cases htrim : trimStr raw = []
      · exact fun c hc => (trimStr_eq_nil_iff raw).mp htrim c hc
      · rw [if_neg htrim] at h
        dsimp only at h
        split at h
        · simp at h
        · split at h <;> simp at h
    · intro h
      unfold parseSSEEvent
      rw [if_pos ((trimStr_eq_nil_iff raw).mpr h)]
  · intro h
    have htrim : trimStr raw ≠ [] := fun hc => h ((trimStr_eq_nil_iff raw).mp hc)
    unfold parseSSEEvent
    rw [if_neg htrim]
    dsimp only
    rw [hscan]
    unfold ssePayload
    dsimp only
    split
    · rfl
    · split <;> rfl

def noParse : Str → Option JVal := fun _ => none

def c7Frame : Str := "event: Ping\nignored\ndata: hi".data

theorem C7_witness :
    (¬∀ c ∈ c7Frame, isWsChar c = true) ∧
    parseSSEEvent noParse c7Frame = some ("Ping".data, .jstr "hi".data) := by
  refine ⟨by decide, ?_⟩
  have h := (C7_event_decoder noParse c7Frame).2 (by decide)
  rw [h]
  rfl

/-- C9: in every reachable state of the orchestrator page, at most one
of the two gate flags (awaiting-approval and awaiting-revision) is
active; each user action preserves this, and the action that advances
to the next stage (an approve) leaves both gate flags cleared. -/
theorem C9_gate_flags_exclusive :
    (∀ f : GateFlags, GateReachable f → ¬(f.approval = true ∧ f.revision = true)) ∧
    (∀ (f : GateFlags) (a : GateAction), gateGuard f a →
      (a = .approveOk ∨ a = .approveErr) →
      (gateStepResult f a).approval = false ∧ (gateStepResult f a).revision = false) := by
  constructor
  · intro f hr
    induction hr with
    | init => simp
    | step a hr hg ih =>
      cases a <;> simp [gateStepResult]
  · intro f a hg ha
    rcases ha with rfl | rfl
    · exact ⟨rfl, hg.2⟩
    · exact ⟨rfl, hg.2⟩

theorem C9_witness :
    GateReachable ⟨true, false⟩ ∧
    ¬((⟨true, false⟩ : GateFlags).approval = true ∧
      (⟨true, false⟩ : GateFlags).revision = true) ∧
    (gateStepResult ⟨true, false⟩ .approveOk).approval = false ∧
    (gateStepResult ⟨true, false⟩ .approveOk).revision = false := by
  have hreach : GateReachable ⟨true, false⟩ := by
    have := GateReachable.step (f := ⟨false, false⟩) GateAction.submitOk
      GateReachable.init trivial
    simpa [gateStepResult] using this
  refine ⟨hreach, C9_gate_flags_exclusive.1 ⟨true, false⟩ hreach, ?_⟩
  exact C9_gate_flags_exclusive.2 ⟨true, false⟩ .approveOk ⟨rfl, rfl⟩ (Or.inl rfl)

/- ===================== C5: attribution flattening ===================== -/

theorem intercalate_singleton (sep x : Str) : List.intercalate sep [x] = x := by
  simp [List.intercalate]

/-- Evaluation of `noteEntry` on an object entry carrying a member_id,
a response string, possibly a nested member-responses field, and none
of the other recognized fields. -/
theorem noteEntry_generic (e : JVal) (i t : Str) (nested : Option JVal)
    (hidlookup : getProp e keyMemberId = some (.jstr i))
    (hresp : getProp e keyResponse = some (.jstr t))
    (hout : getProp e keyOutput = none) (hcont : getProp e keyContent = none)
    (hmsg : getProp e keyMessages = none)
    (hmr : getProp e keyMemberResponses = nested)
    (hobj : objTruthy e = true)
    (hi : trimStr i ≠ []) (ht : sanitizeCoordinatorText (trimStr t) ≠ []) :
    noteEntry e =
      ⟨toLowerStr i, noteNormalizedId (toLowerStr i),
        sanitizeCoordinatorText (trimStr t)⟩ ::
        (match nested with
         | some r => noteMemberResponses r
         | none => []) := by
  have ht' : t ≠ [] := by
    intro hteq
    apply ht
    rw [hteq]
    rfl
  have hjstr : extractTextFromContent (.jstr t) = t := by simp [extractTextFromContent]
  have htext : extractMemberText e = t := by
    unfold extractMemberText
    rw [hresp, hout, hcont, hmsg]
    dsimp only
    rw [hjstr]
    simp only [List.append_nil, List.nil_append, List.isEmpty_cons, Bool.false_eq_true,
      if_false, ite_false]
    rw [show List.filter truthyStr [t] = [t] by simp [truthyStr, ht'], intercalate_singleton]
  have hid : extractMemberIdentifier e = toLowerStr i := by
    unfold extractMemberIdentifier extractMemberIdFrom
    rw [hidlookup]
    simp [hi]
  have hlow : toLowerStr i ≠ [] := by
    intro hl
    apply hi
    have : i = [] := by simpa [toLowerStr] using hl
    rw [this]
    rfl
  rw [noteEntry, if_pos hobj]
  dsimp only
  rw [hid, htext]
  simp only [if_neg hlow, if_neg ht]
  congr 1
  split
  next r heq =>
    have hsome : nested = some r := by rw [← hmr, heq]
    rw [hsome]
  next heq =>
    have hnone : nested = none := by rw [← hmr, heq]
    rw [hnone]

theorem noteMemberResponses_obj (fs : List (Str × JVal)) :
    noteMemberResponses (.jobj fs) = noteEntry (.jobj fs) := by
  simp [noteMemberResponses, noteList]

theorem noteMemberResponses_singleton_arr (v : JVal) :
    noteMemberResponses (.jarr [v]) = noteEntry v := by
  simp [noteMemberResponses, noteList]

def c5Child : JVal := .jobj [(keyMemberId, .jstr "b".data), (keyResponse, .jstr "hello".data)]

def c5Parent : JVal :=
  .jobj [(keyMemberId, .jstr "a".data), (keyResponse, .jstr []),
    (keyMemberResponses, .jarr [c5Child])]

/-- C5 counterexample: `c5Parent` is a structure-typed entry whose
nested member-responses field holds a child with non-empty text, yet
resolving it yields no MemberOutput at all — the original returns
before recursing when the entry's own cleaned text is empty
(agentos.ts lines 239-241), so the claim's "emits that entry's
MemberOutput and then recursively resolves the entry's nested
member-responses field" fails for entries with empty cleaned text. -/
theorem C5_counterexample :
    objTruthy c5Parent = true ∧
    noteMemberResponses (.jarr [c5Child]) =
      [⟨"b".data, "b".data, "hello".data⟩] ∧
    noteMemberResponses c5Parent = [] := by
  refine ⟨rfl, ?_, ?_⟩
  · have hch := noteEntry_generic c5Child "b".data "hello".data none
      rfl rfl rfl rfl rfl rfl rfl (by decide) (by decide)
    rw [noteMemberResponses_singleton_arr, hch]
    decide
  · have htext : extractMemberText c5Parent = [] := by
      unfold extractMemberText
      rw [show getProp c5Parent keyResponse = some (.jstr []) from rfl,
        show getProp c5Parent keyOutput = none from rfl,
        show getProp c5Parent keyContent = none from rfl,
        show getProp c5Parent keyMessages = none from rfl]
      dsimp only
      rw [show extractTextFromContent (.jstr []) = [] by simp [extractTextFromContent]]
      decide
    have hentry : noteEntry c5Parent = [] := by
      rw [noteEntry, if_pos (by rfl)]
      dsimp only
      rw [htext, if_pos (by decide)]
    rw [show noteMemberResponses c5Parent = noteEntry c5Parent from
      noteMemberResponses_obj _, hentry]

def c5lvl3 (i3 t3 : Str) : JVal :=
  .jobj [(keyMemberId, .jstr i3), (keyResponse, .jstr t3)]

def c5lvl2 (i2 i3 t2 t3 : Str) : JVal :=
  .jobj [(keyMemberId, .jstr i2), (keyResponse, .jstr t2),
    (keyMemberResponses, .jarr [c5lvl3 i3 t3])]

def c5lvl1 (i1 i2 i3 t1 t2 t3 : Str) : JVal :=
  .jobj [(keyMemberId, .jstr i1), (keyResponse, .jstr t1),
    (keyMemberResponses, .jarr [c5lvl2 i2 i3 t2 t3])]

/-- C5 (amended): attribution flattens arbitrarily deep nesting in
first-seen order for entries whose sanitized text is non-empty —
each such structure-typed entry emits its MemberOutput (keyed by the
lowercased identifier's normalized form, except that the literal
"(unknown)" identifier is kept verbatim as the key, agentos.ts line
237) and then recursively resolves its nested member-responses field
(an entry with empty sanitized text is skipped together with its
nested responses); in particular a 3-level nested structure with a
non-blank identifier and non-empty sanitized text at each level yields
exactly the 3 MemberOutputs in order of appearance. -/
theorem C5_amended_flattening (i1 i2 i3 t1 t2 t3 : Str)
    (hi1 : trimStr i1 ≠ []) (hi2 : trimStr i2 ≠ []) (hi3 : trimStr i3 ≠ [])
    (ht1 : sanitizeCoordinatorText (trimStr t1) ≠ [])
    (ht2 : sanitizeCoordinatorText (trimStr t2) ≠ [])
    (ht3 : sanitizeCoordinatorText (trimStr t3) ≠ []) :
    noteMemberResponses (c5lvl1 i1 i2 i3 t1 t2 t3) =
      [⟨toLowerStr i1, noteNormalizedId (toLowerStr i1), sanitizeCoordinatorText (trimStr t1)⟩,
       ⟨toLowerStr i2, noteNormalizedId (toLowerStr i2), sanitizeCoordinatorText (trimStr t2)⟩,
       ⟨toLowerStr i3, noteNormalizedId (toLowerStr i3), sanitizeCoordinatorText (trimStr t3)⟩] := by
  have h3 := noteEntry_generic (c5lvl3 i3 t3) i3 t3 none
    rfl rfl rfl rfl rfl rfl rfl hi3 ht3
  have h2 := noteEntry_generic (c5lvl2 i2 i3 t2 t3) i2 t2 (some (.jarr [c5lvl3 i3 t3]))
    rfl rfl rfl rfl rfl rfl rfl hi2 ht2
  have h1 := noteEntry_generic (c5lvl1 i1 i2 i3 t1 t2 t3) i1 t1
    (some (.jarr [c5lvl2 i2 i3 t2 t3]))
    rfl rfl rfl rfl rfl rfl rfl hi1 ht1
  rw [show noteMemberResponses (c5lvl1 i1 i2 i3 t1 t2 t3) =
    noteEntry (c5lvl1 i1 i2 i3 t1 t2 t3) from noteMemberResponses_obj _, h1]
  dsimp only
  rw [noteMemberResponses_singleton_arr, h2]
  dsimp only
  rw [noteMemberResponses_singleton_arr, h3]

theorem C5_amended_witness :
    noteMemberResponses (c5lvl1 "Res".data "Vis".data "Pro".data
        "alpha".data "beta".data "gamma".data) =
      [⟨"res".data, "res".data, "alpha".data⟩,
       ⟨"vis".data, "vis".data, "beta".data⟩,
       ⟨"pro".data, "pro".data, "gamma".data⟩] ∧
    noteMemberResponses (c5lvl1 "Res".data "(unknown)".data "Pro".data
        "alpha".data "beta".data "gamma".data) =
      [⟨"res".data, "res".data, "alpha".data⟩,
       ⟨"(unknown)".data, "(unknown)".data, "beta".data⟩,
       ⟨"pro".data, "pro".data, "gamma".data⟩] := by
  constructor
  · rw [C5_amended_flattening "Res".data "Vis".data "Pro".data
      "alpha".data "beta".data "gamma".data
      (by decide) (by decide) (by decide) (by decide) (by decide) (by decide)]
    decide
  · rw [C5_amended_flattening "Res".data "(unknown)".data "Pro".data
      "alpha".data "beta".data "gamma".data
      (by decide) (by decide) (by decide) (by decide) (by decide) (by decide)]
    decide

/-- C6 counterexample: on the one-object cyclic structure
`\x7b content: <itself> \x7d` the normalizer's recursion never returns
(it fails at every fuel value), because the implementation keeps no
visited set — a revisit of an already-visited object is not treated as
empty, contradicting the claim that normalize terminates on a
pathological cyclic structure. -/
theorem C6_counterexample : DivergesOn cycHeap (.href 0) :=
  fun f => (cycHeap_diverges_both f).1

/-- C6 (amended): the normalizer cannot throw or loop on any value the
wire can produce — for every reference-free finite value (the shape of
every `JSON.parse` result) and any fuel exceeding the value's size,
the object-graph normalizer returns a string; but the implementation
tracks no visited identities, so on a cyclic structure (impossible
from the wire) the recursion does not terminate. -/
theorem C6_amended_total_on_wire_values :
    ∀ (heap : Heap) (v : HVal) (f : Nat), noRefs v = true → hsize v < f →
      (extractTextH heap f v).isSome = true :=
  fun heap v f hn hs => (extractTextH_fuel heap f).1 v hn hs

theorem C6_amended_witness :
    noRefs (.hobj [(keyText, .hstr "hi".data)]) = true ∧
    hsize (.hobj [(keyText, .hstr "hi".data)]) < 5 ∧
    (extractTextH cycHeap 5 (.hobj [(keyText, .hstr "hi".data)])).isSome = true := by
  have h1 : noRefs (.hobj [(keyText, .hstr "hi".data)]) = true := by
    simp [noRefs, noRefsL, noRefsF]
  have h2 : hsize (.hobj [(keyText, .hstr "hi".data)]) < 5 := by
    simp [hsize, hsizeL, hsizeF]
  exact ⟨h1, h2, C6_amended_total_on_wire_values cycHeap _ 5 h1 h2⟩

/- ===================== C10: result suffix and recovery ===================== -/

def hasSub (pat s : Str) : Bool := (findSub pat s).isSome

theorem hasSub_cons {pat : Str} {c : Char} {rest : Str}
    (h : hasSub pat rest = true) : hasSub pat (c :: rest) = true := by
  unfold hasSub findSub
  split
  · rfl
  · unfold hasSub at h
    cases hf : findSub pat rest with
    | none => rw [hf] at h; simp at h
    | some n => simp [hf]

theorem findSub_boundary :
    ∀ (B pat T : Str), pat ≠ [] →
      hasSub pat (B ++ pat.dropLast) = false →
      findSub pat (B ++ pat ++ T) = some B.length := by
  intro B
  induction B with
  | nil =>
    intro pat T hp _
    cases hpat : pat with
    | nil => exact absurd hpat hp
    | cons c cs =>
      subst hpat
      have hpre : (c :: cs).isPrefixOf (c :: (cs ++ T)) = true := by
        rw [List.isPrefixOf_iff_prefix]
        exact List.prefix_append (c :: cs) T
      show findSub (c :: cs) (c :: (cs ++ T)) = some 0
      unfold findSub
      rw [if_pos hpre]
  | cons b B ih =>
    intro pat T hp hno
    have hlen : 1 ≤ pat.length := List.length_pos.mpr hp
    have hnopref : pat.isPrefixOf (b :: ((B ++ pat) ++ T)) = false := by
      cases hval : pat.isPrefixOf (b :: ((B ++ pat) ++ T)) with
      | false => rfl
      | true =>
        exfalso
        rw [List.isPrefixOf_iff_prefix] at hval
        have hsplit : pat.dropLast ++ [pat.getLast hp] = pat :=
          List.dropLast_append_getLast hp
        have hdp : (b :: (B ++ pat.dropLast)) ++ (pat.getLast hp :: T) =
            b :: ((B ++ pat) ++ T) := by
          rw [show (b :: (B ++ pat.dropLast)) ++ (pat.getLast hp :: T) =
            b :: (B ++ (pat.dropLast ++ (pat.getLast hp :: T))) by simp]
          rw [show pat.dropLast ++ (pat.getLast hp :: T) =
            (pat.dropLast ++ [pat.getLast hp]) ++ T by simp]
          rw [hsplit]
          simp
        have hfits : pat <+: (b :: (B ++ pat.dropLast)) := by
          apply List.prefix_of_prefix_length_le hval
          · rw [← hdp]
            exact List.prefix_append _ _
          · rw [List.length_cons, List.length_append, List.length_dropLast]
            omega
        have hsub : hasSub pat (b :: (B ++ pat.dropLast)) = true := by
          unfold hasSub
          rw [show findSub pat (b :: (B ++ pat.dropLast)) = some 0 from by
            unfold findSub
            rw [if_pos (by rw [List.isPrefixOf_iff_prefix]; exact hfits)]]
          rfl
        rw [show b :: (B ++ pat.dropLast) = (b :: B) ++ pat.dropLast from rfl] at hsub
        rw [hsub] at hno
        simp at hno
    have hno' : hasSub pat (B ++ pat.dropLast) = false := by
      cases hval : hasSub pat (B ++ pat.dropLast) with
      | false => rfl
      | true =>
        exfalso
        have := hasSub_cons (c := b) hval
        rw [show b :: (B ++ pat.dropLast) = (b :: B) ++ pat.dropLast from rfl] at this
        rw [this] at hno
        simp at hno
    show findSub pat (b :: ((B ++ pat) ++ T)) = some (B.length + 1)
    unfold findSub
    rw [if_neg (by rw [hnopref]; simp)]
    rw [show (B ++ pat) ++ T = B ++ pat ++ T from rfl, ih pat T hp hno']
    rfl

theorem trimStr_space_cons (x : Str) : trimStr (' ' :: x) = trimStr x := by
  unfold trimStr
  rw [List.dropWhile_cons, if_pos (by simp [isWsChar])]

theorem splitDebugInfo_recover (B ids : Str)
    (hB : trimStr B = B)
    (hno : hasSub idsMarker (B ++ idsMarker.dropLast) = false) :
    splitDebugInfo (B ++ idsMarker ++ ' ' :: ids) = (B, trimStr ids) := by
  have hmarker : idsMarker ≠ [] := by decide
  have hf : findSub idsMarker (B ++ idsMarker ++ (' ' :: ids)) = some B.length :=
    findSub_boundary B idsMarker (' ' :: ids) hmarker hno
  have htake : (B ++ idsMarker ++ ' ' :: ids).take B.length = B := by
    rw [show B ++ idsMarker ++ ' ' :: ids = B ++ (idsMarker ++ ' ' :: ids) from by simp]
    exact List.take_left B _
  have hdrop : (B ++ idsMarker ++ ' ' :: ids).drop (B.length + idsMarker.length) =
      ' ' :: ids := by
    rw [show B ++ idsMarker ++ ' ' :: ids = (B ++ idsMarker) ++ ' ' :: ids from by simp]
    exact List.drop_left' (by simp)
  unfold splitDebugInfo
  rw [if_neg (by simp [List.isEmpty_iff])]
  rw [hf]
  dsimp only
  rw [htake, hdrop, hB, trimStr_space_cons]

/-- C10: the returned result text is not the bare resolved answer — it
is the trimmed answer followed by the literal marker
`"\n\n---\nIdentifiers seen: "` and the comma-joined distinct member
identifiers in order of first appearance (the empty string when no
members were observed); splitting at the marker, as the page's
`splitDebugInfo` does, recovers the display body exactly (provided the
marker does not also occur inside the answer). -/
theorem C10_result_text_suffix :
    ∀ (st : AggState) (target : Str),
      runResultText st target =
        trimStr (finishText st target) ++ idsMarker ++ ' ' ::
          List.intercalate (',' :: [' ']) (dedupFirst st.memberIdentifiers) ∧
      (hasSub idsMarker (trimStr (finishText st target) ++ idsMarker.dropLast) = false →
        splitDebugInfo (runResultText st target) =
          (trimStr (finishText st target),
            trimStr (List.intercalate (',' :: [' ']) (dedupFirst st.memberIdentifiers)))) := by
  intro st target
  refine ⟨rfl, ?_⟩
  intro hno
  exact splitDebugInfo_recover _ _ (trimStr_idem _) hno

theorem C10_witness :
    splitDebugInfo (runResultText c4State "researchagent".data) =
      ("img one".data, "visualagent".data) := by
  have h := (C10_result_text_suffix c4State "researchagent".data).2 (by decide)
  rw [h]
  have hdd : dedupFirst ["visualagent".data] = ["visualagent".data] := by
    simp [dedupFirst]
  rw [show c4State.memberIdentifiers = ["visualagent".data] from rfl, hdd]
  decide
